import Mathlib

/-!
A shallow embedding of the log-structured key–value store in `src/lib.rs`
(module `store`), together with proofs about its operations.

Modelling conventions:
* Keys and values are arbitrary finite octet strings, modelled as `List Nat`.
* File contents are byte lists (`List Nat`); file names (`<nanos>.kvs`) are
  modelled by their numeric timestamp (`Nat`).
* The database directory is a finite map from file name to contents, kept as
  an association list whose order is the `read_dir` enumeration order.
* The in-memory `HashMap` (`key_map`, and the transient `set_map` of
  compaction) is modelled by an association list with replace-in-place
  insertion; iteration order of the model is the list order.
* Clock reads (`SystemTime::now`, used to name fresh segment files) are an
  explicit `now : Nat` argument.
* Fallible I/O: the append inside `write_command` takes an explicit
  `io : WriteOutcome` fault model for its single `write_all`: the call
  either succeeds, or fails with an I/O error after writing a partial
  prefix of the record (which `write_all` permits and spec section 7
  acknowledges).  Operations return their `Result` together with the post
  state, so that the state after a failed operation is observable.
-/

/-! ## Definitions: the codec, the directory model, and the store operations -/

/-- Octet strings: the semantic type of keys, values, and file contents. -/
abbrev Bytes := List Nat

/-- The on-disk record: `KvRecord::Set((k, v))` or `KvRecord::Rm(k)`
(src/lib.rs lines 145-149). -/
inductive KvRecord where
  | set : Bytes → Bytes → KvRecord
  | rm : Bytes → KvRecord
deriving DecidableEq, Repr

/-- The key embedded in a record. -/
def recKey : KvRecord → Bytes
  | .set k _ => k
  | .rm k => k

/-- The error enum `KvsError` (src/lib.rs lines 10-18). -/
inductive KvsError where
  | FileListEmpty
  | WrongEngine
  | SerializationError : String → KvsError
  | IOError : String → KvsError
  | NonExistantKey
  | Other
deriving DecidableEq, Repr

/-- Decidable equality of operation results, for evaluating the model at
concrete inputs. -/
instance {ε α : Type} [DecidableEq ε] [DecidableEq α] : DecidableEq (Except ε α) := by
  intro a b
  cases a <;> cases b <;> first
    | exact isFalse (fun h => Except.noConfusion h)
    | exact decidable_of_iff _ (by rw [Except.error.injEq])
    | exact decidable_of_iff _ (by rw [Except.ok.injEq])

/-- Modelled from the spec: length header of one field of the codec.
The concrete codec (`rmp_serde`, a third-party crate not under src/) is
modelled per spec section 4.A as a self-delimiting binary format:
each octet-string field is emitted as its length followed by its bytes. -/
def encBytes (b : Bytes) : Bytes := b.length :: b

/-- Modelled from the spec: `rmp_serde::to_vec` on a record. A tag byte
(0 for `Set`, 1 for `Rm`) followed by the length-prefixed fields; the
codec is self-delimiting and round-trips, as spec section 4.A requires. -/
def rmpEncode : KvRecord → Bytes
  | .set k v => 0 :: (encBytes k ++ encBytes v)
  | .rm k => 1 :: encBytes k

/-- Modelled from the spec: decode one length-prefixed field from the front
of a byte stream, returning the field and the remaining stream. -/
def decBytes : Bytes → Option (Bytes × Bytes)
  | [] => none
  | n :: rest => if n ≤ rest.length then some (rest.take n, rest.drop n) else none

/-- Modelled from the spec: decode a single record from the front of a byte
stream (`rmp_serde` deserialization); returns the record and the rest of
the stream, or `none` on a malformed stream. -/
def rmpDecodeOne : Bytes → Option (KvRecord × Bytes)
  | [] => none
  | 0 :: rest =>
    match decBytes rest with
    | some (k, r1) =>
      match decBytes r1 with
      | some (v, r2) => some (.set k v, r2)
      | none => none
    | none => none
  | 1 :: rest =>
    match decBytes rest with
    | some (k, r1) => some (.rm k, r1)
    | none => none
  | _ :: _ => none

/-- Lookup in an association list (`HashMap::get`, and reading a file by
name from the directory). -/
def alookup {κ α : Type} [DecidableEq κ] : List (κ × α) → κ → Option α
  | [], _ => none
  | e :: rest, k => if e.1 = k then some e.2 else alookup rest k

/-- Replace-in-place insertion (`HashMap::insert`; also `File::create`,
which truncates an existing file of the same name). -/
def insertA {κ α : Type} [DecidableEq κ] : List (κ × α) → κ → α → List (κ × α)
  | [], k, v => [(k, v)]
  | e :: rest, k, v => if e.1 = k then (k, v) :: rest else e :: insertA rest k v

/-- Removal (`HashMap::remove`, `fs::remove_file`). -/
def eraseA {κ α : Type} [DecidableEq κ] (l : List (κ × α)) (k : κ) : List (κ × α) :=
  l.filter (fun e => decide (e.1 ≠ k))

/-- The index entry `ValueData` (src/lib.rs lines 151-155). -/
structure ValueData where
  size : Nat
  offset : Nat
  file_path : Nat
deriving DecidableEq, Repr

/-- One step short of `deserialize_files`: stream records out of one file's
bytes, producing each record together with the `ValueData` the source
builds for it (offset = stream position before the record, size = bytes
consumed by its decode).  Structural recursion on explicit fuel; the
caller passes the byte count, which suffices because every successful
decode consumes at least one byte (`rmpDecodeOne_length_lt`). -/
def parseAux (path : Nat) : Nat → Nat → Bytes → Except KvsError (List (KvRecord × ValueData))
  | 0, _, rest =>
    if rest.isEmpty then .ok [] else .error (KvsError.SerializationError "decode")
  | fuel + 1, pos, rest =>
    if rest.isEmpty then .ok []
    else
      match rmpDecodeOne rest with
      | none => .error (KvsError.SerializationError "decode")
      | some (r, rest1) =>
        match parseAux path fuel (pos + (rest.length - rest1.length)) rest1 with
        | .ok tl =>
          .ok ((r, ⟨rest.length - rest1.length, pos, path⟩) :: tl)
        | .error e => .error e

/-- Stream all records out of one file (the inner loop of
`KvStore::deserialize_files`, src/lib.rs lines 321-338). -/
def deserializeFile (path : Nat) (bytes : Bytes) : Except KvsError (List (KvRecord × ValueData)) :=
  parseAux path bytes.length 0 bytes

/-- The function `KvStore::deserialize_files` (src/lib.rs lines 317-340): read each named
file from the directory and stream its records; the callback applications
are modelled by returning the record/location pairs in callback order. -/
def deserialize_files (fs : List (Nat × Bytes)) : List Nat → Except KvsError (List (KvRecord × ValueData))
  | [] => .ok []
  | p :: rest =>
    match alookup fs p with
    | none => .error (KvsError.IOError "read")
    | some contents =>
      match deserializeFile p contents with
      | .error e => .error e
      | .ok recs =>
        match deserialize_files fs rest with
        | .error e => .error e
        | .ok recs2 => .ok (recs ++ recs2)

/-- Concatenation of the encodings of a list of records: the contents of a
well-formed segment file. -/
def encAll (rs : List KvRecord) : Bytes := (rs.map rmpEncode).flatten

/-- The record/location pairs that streaming a well-formed segment file
produces, starting at stream position `pos`. -/
def offsetsFrom (path : Nat) : Nat → List KvRecord → List (KvRecord × ValueData)
  | _, [] => []
  | pos, r :: rs =>
    (r, ⟨(rmpEncode r).length, pos, path⟩) :: offsetsFrom path (pos + (rmpEncode r).length) rs

/-- The last element of a list satisfying a predicate: the record that wins
replay for a given key. -/
def lastMatch {β : Type} (p : β → Bool) : List β → Option β
  | [] => none
  | x :: l =>
    match lastMatch p l with
    | some y => some y
    | none => if p x then some x else none

/-- The store state: the database directory (an enumeration-ordered map from
file name to contents) together with the fields of `InnerStructs`
(src/lib.rs lines 157-163; `dir_path` is implicit since all files live in
the one directory). -/
structure Store where
  files : List (Nat × Bytes)
  bytes_in_last_file : Nat
  active_file : Nat
  inactive_files : List Nat
  key_map : List (Bytes × ValueData)
deriving DecidableEq, Repr

/-- The outcome of the single `write_all` call of `write_command`
(src/lib.rs line 312): it either succeeds, or fails with an I/O error
after having written the first `n` bytes of the buffer — `write_all`
guarantees nothing about how much of the buffer a failed call wrote, and
spec section 7 explicitly allows the active segment to be left longer
than `bytes_in_active` by such a failure. -/
inductive WriteOutcome where
  | ok
  | fail : Nat → WriteOutcome
deriving DecidableEq, Repr

/-- The function `KvStore::write_command` (src/lib.rs lines 296-315),
parameterized over the outcome of `rmp_serde::to_vec` (the `?` on line
297) and over the outcome of the `write_all` on line 312.  Mirrors the
source order: the serialization result is inspected first; then
`key_map.insert` runs BEFORE the file is opened and appended; on a
successful append the bytes land in the active segment and the byte
counter advances; on a failed append the segment retains the partially
written prefix, the counter is NOT advanced, and the error is returned —
the index insert has already happened either way.  The `.unwrap()` on
the open of a missing active file is a panic in the source; the model
returns an I/O error in that branch, and the theorems about the append
failure path assume the active file exists so that they do not rest on
it. -/
def write_command_ser (st : Store) (ser : Except KvsError Bytes) (key : Bytes)
    (io : WriteOutcome) : Except KvsError Unit × Store :=
  match ser with
  | .error e => (.error e, st)
  | .ok serialized =>
    let vd : ValueData := ⟨serialized.length, st.bytes_in_last_file, st.active_file⟩
    let st1 : Store := { st with key_map := insertA st.key_map key vd }
    match alookup st1.files st1.active_file with
    | none => (.error (KvsError.IOError "open"), st1)
    | some contents =>
      match io with
      | .ok =>
        (.ok (), { st1 with
          files := insertA st1.files st1.active_file (contents ++ serialized),
          bytes_in_last_file := st1.bytes_in_last_file + serialized.length })
      | .fail n =>
        (.error (KvsError.IOError "write"), { st1 with
          files := insertA st1.files st1.active_file (contents ++ serialized.take n) })

/-- The function `KvStore::write_command` with the serializer that the source calls
(`rmp_serde::to_vec`, which succeeds on every `KvRecord`). -/
def write_command (st : Store) (command : KvRecord) (key : Bytes) (io : WriteOutcome) :
    Except KvsError Unit × Store :=
  write_command_ser st (.ok (rmpEncode command)) key io

/-- The operation `KvsEngine::set for KvStore` (src/lib.rs lines 179-182). -/
def KvStore.set (st : Store) (key val : Bytes) (io : WriteOutcome) :
    Except KvsError Unit × Store :=
  write_command st (.set key val) key io

/-- The operation `KvsEngine::get for KvStore` (src/lib.rs lines 183-201): look the key up
in the index; on a hit open the recorded file, seek to `offset`, read
exactly `size` bytes, decode, and return the value of a `Set` record —
any other decoded record (`Rm`) is reported as `None`.  `read_exact`
fails iff fewer than `size` bytes are available after `offset`. -/
def KvStore.get (st : Store) (key : Bytes) : Except KvsError (Option Bytes) :=
  match alookup st.key_map key with
  | none => .ok none
  | some vd =>
    match alookup st.files vd.file_path with
    | none => .error (KvsError.IOError "open")
    | some contents =>
      if contents.length - vd.offset < vd.size then .error (KvsError.IOError "read_exact")
      else
        match rmpDecodeOne ((contents.drop vd.offset).take vd.size) with
        | none => .error (KvsError.SerializationError "decode")
        | some (r, _) =>
          match r with
          | .set _ v => .ok (some v)
          | .rm _ => .ok none

/-- The operation `KvsEngine::remove for KvStore` (src/lib.rs lines 202-209): the source
pattern `if let Ok(Some(_val)) = self.get(key)` appends a tombstone on a
hit and reports `NonExistantKey` on EVERY other outcome of `get`,
including `Err(_)`. -/
def KvStore.remove (st : Store) (key : Bytes) (io : WriteOutcome) :
    Except KvsError Unit × Store :=
  match KvStore.get st key with
  | .ok (some _) => write_command st (.rm key) key io
  | _ => (.error KvsError.NonExistantKey, st)

/-- The constructor `KvStore::new` (src/lib.rs lines 263-294).  `listing` is the set of
`.kvs` entries of the directory in `read_dir` enumeration order (the
source filters other extensions out; directory creation and the ambient
I/O are modelled as infallible).  Note the source does NOT sort: the
last-enumerated file is popped as the active one, and
`bytes_in_last_file` ends up as the on-disk length of that same file
(the loop overwrites it for every enumerated `.kvs` file).  If the
listing is empty a fresh empty segment named `now` is allocated. -/
def KvStore.new (listing : List (Nat × Bytes)) (now : Nat) : Store :=
  match listing.getLast? with
  | none =>
    { files := [(now, [])], bytes_in_last_file := 0, active_file := now,
      inactive_files := [], key_map := [] }
  | some last =>
    { files := listing, bytes_in_last_file := last.2.length, active_file := last.1,
      inactive_files := listing.dropLast.map Prod.fst, key_map := [] }

/-- The function `KvStore::open` (src/lib.rs lines 342-360): construct the store, then
replay `inactive_files ++ [active_file]` in order, inserting the location
of every record (both `Set` and `Rm`) under its key; the final map
becomes `key_map`. -/
def KvStore.openStore (listing : List (Nat × Bytes)) (now : Nat) :
    Except KvsError Store :=
  let st := KvStore.new listing now
  match deserialize_files st.files (st.inactive_files ++ [st.active_file]) with
  | .error e => .error e
  | .ok recs =>
    .ok { st with
      key_map := recs.foldl (fun m rv => insertA m (recKey rv.1) rv.2) [] }

/-- Modelled from the spec (section 4.B steps 3-5): `open` as the spec
prescribes it — identical to the source's `open` except that the retained
paths are first sorted by filename ascending, so that replay is
oldest-first and the newest file becomes active.  This definition exists
only to compare the prescribed behaviour against `KvStore.openStore`. -/
def specInsertSorted (x : Nat × Bytes) : List (Nat × Bytes) → List (Nat × Bytes)
  | [] => [x]
  | y :: ys => if x.1 ≤ y.1 then x :: y :: ys else y :: specInsertSorted x ys

/-- Modelled from the spec: ascending insertion sort of the directory
listing by filename. -/
def specSortByName (l : List (Nat × Bytes)) : List (Nat × Bytes) :=
  l.foldr specInsertSorted []

/-- Modelled from the spec: the spec's `open`, which replays the segment
files in ascending filename order (spec section 3 invariant 4 and
section 4.B). -/
def specOpenSorted (listing : List (Nat × Bytes)) (now : Nat) :
    Except KvsError Store :=
  KvStore.openStore (specSortByName listing) now

/-- The call `fs::remove_file` over a list of paths (the loop in
src/lib.rs lines 399-401); removing a missing file is an I/O error. -/
def removeFiles (fs : List (Nat × Bytes)) : List Nat → Except KvsError (List (Nat × Bytes))
  | [] => .ok fs
  | p :: rest =>
    match alookup fs p with
    | none => .error (KvsError.IOError "remove")
    | some _ => removeFiles (eraseA fs p) rest

/-- One iteration of the compaction loop over `set_map`
(src/lib.rs lines 381-398): a live entry is re-serialized, appended to
the compacted file and re-indexed at its new location; a dead entry is
erased from the index.  The accumulator carries the directory, the index
and `next_offset`. -/
def compactStep (compacted : Nat)
    (acc : List (Nat × Bytes) × List (Bytes × ValueData) × Nat)
    (entry : Bytes × Option Bytes) :
    List (Nat × Bytes) × List (Bytes × ValueData) × Nat :=
  match entry.2 with
  | some v =>
    let serialized := rmpEncode (.set entry.1 v)
    (acc.1.map (fun e => if e.1 = compacted then (e.1, e.2 ++ serialized) else e),
     insertA acc.2.1 entry.1 ⟨serialized.length, acc.2.2, compacted⟩,
     acc.2.2 + serialized.length)
  | none => (acc.1, eraseA acc.2.1 entry.1, acc.2.2)

/-- The function `KvStore::compact_files` (src/lib.rs lines 362-407): replay every
segment into a transient `set_map` (`Set` ⇒ live value, `Rm` ⇒ dead),
create a fresh segment named `now`, write one `Set` record per live
entry while re-pointing the index at it and erasing dead keys, then
unlink all old segments and make the fresh one active.  A failed unlink
surfaces the I/O error, leaving the already-performed mutations of the
directory and index in place (`?` on lines 400/402). -/
def KvStore.compact_files (st : Store) (now : Nat) : Except KvsError Unit × Store :=
  match deserialize_files st.files (st.inactive_files ++ [st.active_file]) with
  | .error e => (.error e, st)
  | .ok recs =>
    let set_map : List (Bytes × Option Bytes) :=
      recs.foldl (fun m rv =>
        match rv.1 with
        | .set k v => insertA m k (some v)
        | .rm k => insertA m k none) []
    let fs1 := insertA st.files now []
    let folded := set_map.foldl (compactStep now) (fs1, st.key_map, 0)
    match removeFiles folded.1 st.inactive_files with
    | .error e => (.error e, { st with files := folded.1, key_map := folded.2.1 })
    | .ok fs3 =>
      match alookup fs3 st.active_file with
      | none => (.error (KvsError.IOError "remove"),
          { st with files := fs3, key_map := folded.2.1 })
      | some _ =>
        (.ok (), { files := eraseA fs3 st.active_file,
                   bytes_in_last_file := folded.2.2,
                   active_file := now,
                   inactive_files := [],
                   key_map := folded.2.1 })

/-- The function `KvStore::alloc_new_file_if_needed` (src/lib.rs lines 248-261): the
rotation policy.  Over the 1,000,000-byte threshold it either compacts
(at 10 or more inactive segments) or retires the active segment and
starts a fresh one.  NOTE: no caller of this function exists anywhere in
the source — see the theorem for claim C6. -/
def alloc_new_file_if_needed (st : Store) (now : Nat) : Except KvsError Unit × Store :=
  if st.bytes_in_last_file > 1000000 then
    if st.inactive_files.length ≥ 10 then
      KvStore.compact_files st now
    else
      (.ok (), { st with
        files := insertA st.files now [],
        inactive_files := st.inactive_files ++ [st.active_file],
        active_file := now,
        bytes_in_last_file := 0 })
  else (.ok (), st)

/-- The value a record contributes to the transient `set_map` of
compaction: a `Set` is a live value, an `Rm` is a tombstone. -/
def recVal : KvRecord → Option Bytes
  | .set _ v => some v
  | .rm _ => none

/-- The live image of a replay map: one `Set(k, v)` record per live entry,
in map order (the records compaction writes, src/lib.rs lines 381-393). -/
def liveRecs (m : List (Bytes × Option Bytes)) : List KvRecord :=
  m.filterMap (fun e => e.2.map (fun v => KvRecord.set e.1 v))

/-- The latest value of key `k` in a replay stream: the payload of the last
record for `k`, provided that record is a `Set`. -/
def lastLive (recs : List (KvRecord × ValueData)) (k : Bytes) : Option Bytes :=
  match lastMatch (fun rv => decide (recKey rv.1 = k)) recs with
  | some rv => recVal rv.1
  | none => none

/-- Key `k`'s last record in the replay stream exists and is an `Rm`
tombstone. -/
def lastIsRm (recs : List (KvRecord × ValueData)) (k : Bytes) : Prop :=
  ∃ rv, lastMatch (fun rv => decide (recKey rv.1 = k)) recs = some rv ∧
    recVal rv.1 = none

/-- The well-formedness invariant of a store: the directory names are
exactly the inactive files followed by the active file, without
duplicates; the byte counter is the active file's length; every segment
parses as a concatenation of record encodings; and every index entry is
one of the locations the streaming reader produces for its file, with
the record's key matching the index key. -/
structure StoreWF (st : Store) : Prop where
  names : st.files.map Prod.fst = st.inactive_files ++ [st.active_file]
  nodup : (st.files.map Prod.fst).Nodup
  active : ∃ c, alookup st.files st.active_file = some c ∧
    st.bytes_in_last_file = c.length
  parses : ∀ p c, alookup st.files p = some c → ∃ rs, c = encAll rs
  index : ∀ k vd, alookup st.key_map k = some vd →
    ∃ c rs r, alookup st.files vd.file_path = some c ∧ c = encAll rs ∧
      (r, vd) ∈ offsetsFrom vd.file_path 0 rs ∧ recKey r = k

/-- The property claimed of the index (spec section 3, invariant 2):
every index entry reads back, within bounds, as a whole record whose key
is the index key; in particular a live (`Set`) mapping's embedded key
equals the index key. -/
def liveReadsBack (st : Store) : Prop :=
  ∀ k vd, alookup st.key_map k = some vd →
    ∃ c r, alookup st.files vd.file_path = some c ∧
      vd.offset + vd.size ≤ c.length ∧
      rmpDecodeOne (List.take vd.size (List.drop vd.offset c)) = some (r, []) ∧
      recKey r = k ∧ (∀ k' v', r = KvRecord.set k' v' → k' = k)

/-! ## Theorems -/

theorem decBytes_append (b t : Bytes) : decBytes (encBytes b ++ t) = some (b, t) := by
  simp [decBytes, encBytes, List.take_append, List.drop_append]

/-- Streaming round trip: decoding from an encoded record followed by any
tail recovers the record and leaves exactly the tail. -/
theorem rmpDecodeOne_encode (r : KvRecord) (t : Bytes) :
    rmpDecodeOne (rmpEncode r ++ t) = some (r, t) := by
  cases r with
  | set k v =>
    simp only [rmpEncode, List.cons_append, List.append_assoc, rmpDecodeOne,
      decBytes_append]
  | rm k =>
    simp only [rmpEncode, List.cons_append, rmpDecodeOne, decBytes_append]

theorem decBytes_canonical {l : Bytes} {b rest : Bytes}
    (h : decBytes l = some (b, rest)) : l = encBytes b ++ rest := by
  match l with
  | [] => simp [decBytes] at h
  | n :: tl =>
    simp only [decBytes] at h
    by_cases hn : n ≤ tl.length
    · simp only [if_pos hn] at h
      obtain ⟨hb, hrest⟩ := Prod.mk.injEq .. ▸ Option.some.injEq .. ▸ h
      subst hb hrest
      simp [encBytes, List.length_take, Nat.min_eq_left hn]
    · simp [if_neg hn] at h

/-- Canonicity: a successful decode consumed exactly the encoding of the
returned record. -/
theorem rmpDecodeOne_canonical {l : Bytes} {r : KvRecord} {rest : Bytes}
    (h : rmpDecodeOne l = some (r, rest)) : l = rmpEncode r ++ rest := by
  match l with
  | [] => simp [rmpDecodeOne] at h
  | 0 :: tl =>
    simp only [rmpDecodeOne] at h
    cases h1 : decBytes tl with
    | none => simp [h1] at h
    | some p1 =>
      obtain ⟨k, r1⟩ := p1
      simp only [h1] at h
      cases h2 : decBytes r1 with
      | none => simp [h2] at h
      | some p2 =>
        obtain ⟨v, r2⟩ := p2
        simp only [h2, Option.some.injEq, Prod.mk.injEq] at h
        obtain ⟨hr, hrest⟩ := h
        subst hr hrest
        rw [rmpEncode, decBytes_canonical h1, decBytes_canonical h2]
        simp
  | 1 :: tl =>
    simp only [rmpDecodeOne] at h
    cases h1 : decBytes tl with
    | none => simp [h1] at h
    | some p1 =>
      obtain ⟨k, r1⟩ := p1
      simp only [h1, Option.some.injEq, Prod.mk.injEq] at h
      obtain ⟨hr, hrest⟩ := h
      subst hr hrest
      rw [rmpEncode, decBytes_canonical h1]
      simp
  | (n+2) :: tl => simp [rmpDecodeOne] at h

theorem rmpEncode_ne_nil (r : KvRecord) : rmpEncode r ≠ [] := by
  cases r <;> simp [rmpEncode]

theorem rmpEncode_length_pos (r : KvRecord) : 0 < (rmpEncode r).length := by
  cases r <;> simp [rmpEncode]

/-- A successful decode consumes at least one byte. -/
theorem rmpDecodeOne_length_lt {l : Bytes} {r : KvRecord} {rest : Bytes}
    (h : rmpDecodeOne l = some (r, rest)) : rest.length < l.length := by
  rw [rmpDecodeOne_canonical h, List.length_append]
  have := rmpEncode_length_pos r
  omega

theorem alookup_insertA {κ α : Type} [DecidableEq κ] (l : List (κ × α)) (k k' : κ) (v : α) :
    alookup (insertA l k v) k' = if k = k' then some v else alookup l k' := by
  induction l with
  | nil => by_cases h : k = k' <;> simp [insertA, alookup, h]
  | cons e rest ih =>
    by_cases he : e.1 = k
    · rw [insertA, if_pos he]
      simp only [alookup]
      by_cases h : k = k'
      · simp [h]
      · have he' : ¬ e.1 = k' := fun hc => h (he.symm.trans hc)
        simp [h, he']
    · rw [insertA, if_neg he]
      simp only [alookup]
      rw [ih]
      by_cases h : e.1 = k'
      · have hne : ¬ k = k' := fun hk => he (h.trans hk.symm)
        simp [h, hne]
      · simp [h]

theorem alookup_eraseA {κ α : Type} [DecidableEq κ] (l : List (κ × α)) (k k' : κ) :
    alookup (eraseA l k) k' = if k = k' then none else alookup l k' := by
  induction l with
  | nil => simp [eraseA, alookup]
  | cons e rest ih =>
    rw [eraseA] at ih
    by_cases he : e.1 = k
    · have hp : ¬ (decide (e.1 ≠ k) = true) := by simp [he]
      rw [eraseA, List.filter_cons, if_neg hp, ih]
      by_cases h : k = k'
      · simp [h]
      · have he' : ¬ e.1 = k' := fun hc => h (he.symm.trans hc)
        simp [h, alookup, he']
    · have hp : decide (e.1 ≠ k) = true := by simp [he]
      rw [eraseA, List.filter_cons, if_pos hp]
      simp only [alookup]
      rw [ih]
      by_cases hk' : e.1 = k'
      · have : ¬ k = k' := fun hkk => he (hk'.trans hkk.symm)
        simp [hk', this]
      · simp [hk']

theorem alookup_none_iff {κ α : Type} [DecidableEq κ] (l : List (κ × α)) (k : κ) :
    alookup l k = none ↔ ∀ e ∈ l, e.1 ≠ k := by
  induction l with
  | nil => simp [alookup]
  | cons e rest ih =>
    by_cases h : e.1 = k <;> simp [alookup, h, ih]

theorem insertA_of_not_mem {κ α : Type} [DecidableEq κ] (l : List (κ × α)) (k : κ) (v : α)
    (h : alookup l k = none) : insertA l k v = l ++ [(k, v)] := by
  induction l with
  | nil => simp [insertA]
  | cons e rest ih =>
    rw [alookup_none_iff] at h
    have he : ¬ e.1 = k := h e (by simp)
    have : alookup rest k = none := by
      rw [alookup_none_iff]; exact fun x hx => h x (by simp [hx])
    simp [insertA, he, ih this]

theorem insertA_names {κ α : Type} [DecidableEq κ] (l : List (κ × α)) (k : κ) (v : α)
    (h : (alookup l k).isSome) : (insertA l k v).map Prod.fst = l.map Prod.fst := by
  induction l with
  | nil => simp [alookup] at h
  | cons e rest ih =>
    by_cases he : e.1 = k
    · simp [insertA, he]
    · simp [alookup, he] at h
      simp [insertA, he, ih h]

theorem encAll_nil : encAll [] = [] := by simp [encAll]

theorem encAll_cons (r : KvRecord) (rs : List KvRecord) :
    encAll (r :: rs) = rmpEncode r ++ encAll rs := by simp [encAll]

theorem encAll_append (a b : List KvRecord) :
    encAll (a ++ b) = encAll a ++ encAll b := by simp [encAll]

theorem offsetsFrom_append (path : Nat) (pos : Nat) (a b : List KvRecord) :
    offsetsFrom path pos (a ++ b) =
      offsetsFrom path pos a ++ offsetsFrom path (pos + (encAll a).length) b := by
  induction a generalizing pos with
  | nil => simp [offsetsFrom, encAll_nil]
  | cons r rs ih =>
    simp only [List.cons_append, offsetsFrom, List.append_eq, ih, encAll_cons,
      List.length_append, List.cons.injEq, true_and]
    rw [Nat.add_assoc]

theorem parseAux_encAll (path : Nat) (rs : List KvRecord) :
    ∀ fuel pos, (encAll rs).length ≤ fuel →
    parseAux path fuel pos (encAll rs) = .ok (offsetsFrom path pos rs) := by
  induction rs with
  | nil => intro fuel pos h; cases fuel <;> simp [encAll_nil, parseAux, offsetsFrom]
  | cons r rs ih =>
    intro fuel pos h
    rw [encAll_cons] at h ⊢
    have hne : ¬ (rmpEncode r ++ encAll rs).isEmpty = true := by
      simp [List.isEmpty_iff, rmpEncode_ne_nil r]
    have hlen : 0 < (rmpEncode r).length := rmpEncode_length_pos r
    match fuel with
    | 0 =>
      exfalso
      rw [List.length_append] at h
      omega
    | fuel + 1 =>
      have hfuel : (encAll rs).length ≤ fuel := by
        rw [List.length_append] at h; omega
      have hconsumed : (rmpEncode r ++ encAll rs).length - (encAll rs).length =
          (rmpEncode r).length := by
        rw [List.length_append]; omega
      simp only [parseAux, if_neg hne, rmpDecodeOne_encode, hconsumed,
        ih fuel (pos + (rmpEncode r).length) hfuel]
      rw [offsetsFrom]

/-- Completeness of the streaming reader: a file it reads without error is
exactly a concatenation of record encodings, and the produced locations
are the canonical ones. -/
theorem parseAux_complete (path : Nat) :
    ∀ fuel pos bytes recs, bytes.length ≤ fuel →
    parseAux path fuel pos bytes = .ok recs →
    ∃ rs, bytes = encAll rs ∧ recs = offsetsFrom path pos rs := by
  intro fuel
  induction fuel with
  | zero =>
    intro pos bytes recs hlen h
    have : bytes = [] := List.eq_nil_of_length_eq_zero (Nat.le_zero.mp hlen)
    subst this
    simp [parseAux] at h
    exact ⟨[], by simp [encAll_nil], by simp [h, offsetsFrom]⟩
  | succ fuel ih =>
    intro pos bytes recs hlen h
    by_cases hb : bytes.isEmpty
    · rw [parseAux, if_pos hb] at h
      rw [List.isEmpty_iff] at hb
      subst hb
      simp at h
      exact ⟨[], by simp [encAll_nil], by simp [← h, offsetsFrom]⟩
    · rw [parseAux, if_neg hb] at h
      cases hdec : rmpDecodeOne bytes with
      | none => rw [hdec] at h; simp at h
      | some p =>
        obtain ⟨r, rest1⟩ := p
        rw [hdec] at h
        cases hrec : parseAux path fuel (pos + (bytes.length - rest1.length)) rest1 with
        | error e => simp [hrec] at h
        | ok tl =>
          simp only [hrec, Except.ok.injEq] at h
          have hcanon := rmpDecodeOne_canonical hdec
          have hlt := rmpDecodeOne_length_lt hdec
          have hrest : rest1.length ≤ fuel := by omega
          obtain ⟨rs, hrs1, hrs2⟩ := ih _ rest1 tl hrest hrec
          refine ⟨r :: rs, ?_, ?_⟩
          · rw [encAll_cons, ← hrs1, hcanon]
          · have hcons : bytes.length - rest1.length = (rmpEncode r).length := by
              rw [hcanon, List.length_append]; omega
            rw [hcons] at hrs2
            rw [← h, offsetsFrom, hcons, hrs2]

theorem deserializeFile_encAll (path : Nat) (rs : List KvRecord) :
    deserializeFile path (encAll rs) = .ok (offsetsFrom path 0 rs) :=
  parseAux_encAll path rs _ 0 (Nat.le_refl _)

theorem deserializeFile_complete {path : Nat} {bytes : Bytes}
    {recs : List (KvRecord × ValueData)}
    (h : deserializeFile path bytes = .ok recs) :
    ∃ rs, bytes = encAll rs ∧ recs = offsetsFrom path 0 rs :=
  parseAux_complete path bytes.length 0 bytes recs (Nat.le_refl _) h

theorem encAll_inj : ∀ {rs1 rs2 : List KvRecord}, encAll rs1 = encAll rs2 → rs1 = rs2 := by
  intro rs1
  induction rs1 with
  | nil =>
    intro rs2 h
    cases rs2 with
    | nil => rfl
    | cons r t =>
      rw [encAll_nil, encAll_cons] at h
      exact absurd (List.append_eq_nil.mp h.symm).1 (rmpEncode_ne_nil r)
  | cons r t ih =>
    intro rs2 h
    cases rs2 with
    | nil =>
      rw [encAll_nil, encAll_cons] at h
      exact absurd (List.append_eq_nil.mp h).1 (rmpEncode_ne_nil r)
    | cons r2 t2 =>
      rw [encAll_cons, encAll_cons] at h
      have h1 : rmpDecodeOne (rmpEncode r ++ encAll t) = some (r, encAll t) :=
        rmpDecodeOne_encode r (encAll t)
      rw [h, rmpDecodeOne_encode] at h1
      obtain ⟨hr, ht⟩ := Prod.mk.injEq .. ▸ Option.some.injEq .. ▸ h1
      rw [hr, ih ht.symm]

theorem offsetsFrom_mem {path : Nat} {r : KvRecord} {vd : ValueData} :
    ∀ {pos : Nat} {rs : List KvRecord}, (r, vd) ∈ offsetsFrom path pos rs →
    ∃ a b, rs = a ++ r :: b ∧ vd.size = (rmpEncode r).length ∧
      vd.offset = pos + (encAll a).length ∧ vd.file_path = path := by
  intro pos rs
  induction rs generalizing pos with
  | nil => intro h; simp [offsetsFrom] at h
  | cons r1 t ih =>
    intro h
    rw [offsetsFrom, List.mem_cons] at h
    cases h with
    | inl h =>
      have hr : r = r1 := (Prod.mk.injEq .. ▸ h).1
      have hvd : vd = ⟨(rmpEncode r1).length, pos, path⟩ := (Prod.mk.injEq .. ▸ h).2
      subst hr
      subst hvd
      exact ⟨[], t, rfl, rfl, by simp [encAll_nil], rfl⟩
    | inr h =>
      obtain ⟨a, b, h1, h2, h3, h4⟩ := ih h
      refine ⟨r1 :: a, b, by rw [h1]; rfl, h2, ?_, h4⟩
      rw [h3, encAll_cons, List.length_append]
      omega

/-- Reading back the slice recorded for a parsed record yields exactly that
record's encoding. -/
theorem slice_encAll (a b : List KvRecord) (r : KvRecord) :
    ((encAll (a ++ r :: b)).drop (encAll a).length).take (rmpEncode r).length =
      rmpEncode r := by
  rw [encAll_append, encAll_cons, List.drop_left, List.take_append_of_le_length (by simp),
    List.take_length]

theorem lastMatch_mem {β : Type} {p : β → Bool} :
    ∀ {l : List β} {x : β}, lastMatch p l = some x → x ∈ l ∧ p x := by
  intro l
  induction l with
  | nil => intro x h; simp [lastMatch] at h
  | cons y t ih =>
    intro x h
    rw [lastMatch] at h
    cases ht : lastMatch p t with
    | some z =>
      rw [ht] at h
      have hz : z = x := by
        have : some z = some x := h
        exact Option.some.injEq .. ▸ this
      subst hz
      obtain ⟨h1, h2⟩ := ih ht
      exact ⟨List.mem_cons_of_mem y h1, h2⟩
    | none =>
      rw [ht] at h
      have h2 : (if p y = true then some y else none) = some x := h
      by_cases hp : p y = true
      · rw [if_pos hp] at h2
        have hy : y = x := Option.some.injEq .. ▸ h2
        subst hy
        exact ⟨List.mem_cons_self y t, hp⟩
      · rw [if_neg hp] at h2
        exact Option.noConfusion h2

theorem lastMatch_eq_none {β : Type} {p : β → Bool} :
    ∀ {l : List β}, lastMatch p l = none ↔ ∀ x ∈ l, ¬ p x := by
  intro l
  induction l with
  | nil => simp [lastMatch]
  | cons y t ih =>
    rw [lastMatch]
    cases ht : lastMatch p t with
    | some z =>
      obtain ⟨hm, hp⟩ := lastMatch_mem ht
      constructor
      · intro h; exact Option.noConfusion h
      · intro h; exact absurd hp (h z (List.mem_cons_of_mem y hm))
    | none =>
      have htt := ih.mp ht
      show (if p y = true then some y else none) = none ↔ ∀ x ∈ y :: t, ¬ p x = true
      by_cases hp : p y = true
      · rw [if_pos hp]
        constructor
        · intro h; exact Option.noConfusion h
        · intro h; exact absurd hp (h y (List.mem_cons_self y t))
      · rw [if_neg hp]
        constructor
        · intro _ x hx hpx
          rcases List.mem_cons.mp hx with h1 | h1
          · rw [h1] at hpx; exact hp hpx
          · exact htt x h1 hpx
        · intro _; rfl

/-- Folding `HashMap::insert` over a record stream: the surviving binding
for each key is the last matching element of the stream. -/
theorem alookup_foldl_insertA {κ α β : Type} [DecidableEq κ] (f : β → κ) (g : β → α)
    (l : List β) (init : List (κ × α)) (k : κ) :
    alookup (l.foldl (fun m x => insertA m (f x) (g x)) init) k =
      match lastMatch (fun x => decide (f x = k)) l with
      | some x => some (g x)
      | none => alookup init k := by
  induction l generalizing init with
  | nil => simp [lastMatch]
  | cons x l ih =>
    rw [List.foldl_cons, ih, lastMatch]
    cases hl : lastMatch (fun x => decide (f x = k)) l with
    | some y => rfl
    | none =>
      by_cases hp : f x = k
      · simp [hp, alookup_insertA]
      · simp [hp, alookup_insertA]

theorem rmpDecodeOne_encode_nil (r : KvRecord) :
    rmpDecodeOne (rmpEncode r) = some (r, []) := by
  have := rmpDecodeOne_encode r []
  rwa [List.append_nil] at this

/-- Opening an empty directory: a fresh empty segment named `now` becomes
active and everything else is empty. -/
theorem openStore_nil (now : Nat) :
    KvStore.openStore [] now =
      .ok { files := [(now, [])], bytes_in_last_file := 0, active_file := now,
            inactive_files := [], key_map := [] } := by
  simp [KvStore.openStore, KvStore.new, deserialize_files, deserializeFile,
    parseAux, alookup]

/-- A successful `write_command`: the index gains the record's location, the
encoding is appended to the active segment, and the byte counter advances
by its length. -/
theorem write_command_spec (st : Store) (cmd : KvRecord) (k : Bytes) (c : Bytes)
    (hc : alookup st.files st.active_file = some c) :
    write_command st cmd k WriteOutcome.ok = (.ok (), { st with
      files := insertA st.files st.active_file (c ++ rmpEncode cmd),
      bytes_in_last_file := st.bytes_in_last_file + (rmpEncode cmd).length,
      key_map := insertA st.key_map k
        ⟨(rmpEncode cmd).length, st.bytes_in_last_file, st.active_file⟩ }) := by
  simp [write_command, write_command_ser, hc]

/-- A `write_all` that fails after writing `n` bytes of the record: the
operation reports the I/O error and the byte counter is not advanced,
but the index update has already happened and the active segment retains
the partially written prefix. -/
theorem write_command_io_fail (st : Store) (cmd : KvRecord) (k : Bytes) (c : Bytes)
    (n : Nat) (hc : alookup st.files st.active_file = some c) :
    write_command st cmd k (WriteOutcome.fail n) =
      (.error (KvsError.IOError "write"), { st with
        files := insertA st.files st.active_file (c ++ (rmpEncode cmd).take n),
        key_map := insertA st.key_map k
          (ValueData.mk (rmpEncode cmd).length st.bytes_in_last_file
            st.active_file) }) := by
  simp [write_command, write_command_ser, hc]

/-- A `get` hit whose index entry points at a record boundary returns the
record's payload (`Set`) or `none` (`Rm`). -/
theorem get_spec_hit (st : Store) (k : Bytes) (vd : ValueData) (r : KvRecord)
    (pre suf : Bytes)
    (hk : alookup st.key_map k = some vd)
    (hf : alookup st.files vd.file_path = some (pre ++ rmpEncode r ++ suf))
    (hoff : vd.offset = pre.length)
    (hsz : vd.size = (rmpEncode r).length) :
    KvStore.get st k = match r with
      | .set _ v => .ok (some v)
      | .rm _ => .ok none := by
  have hlen : ¬ ((pre ++ rmpEncode r ++ suf).length - vd.offset < vd.size) := by
    simp only [List.length_append, hoff, hsz]
    omega
  have hslice : List.take vd.size (List.drop vd.offset (pre ++ rmpEncode r ++ suf)) =
      rmpEncode r := by
    rw [hoff, hsz, List.append_assoc, List.drop_left,
      List.take_append_of_le_length (by simp), List.take_length]
  cases r with
  | set k0 v =>
    simp only [KvStore.get, hk, hf, if_neg hlen, hslice, rmpDecodeOne_encode_nil]
  | rm k0 =>
    simp only [KvStore.get, hk, hf, if_neg hlen, hslice, rmpDecodeOne_encode_nil]

/-- C9: if serializing the record fails at the start of `write_command`
(the `?` on `rmp_serde::to_vec`, src/lib.rs line 297 — the common prefix
of `set` and `remove`), the operation returns the `SerializationError`
and the entire store state — index, segments, inactive list and byte
counter — is exactly as before the call, because the encoding happens
before any state is touched. -/
theorem C9_serialization_failure_leaves_state_unchanged
    (st : Store) (msg : String) (key : Bytes) (io : WriteOutcome) :
    write_command_ser st (.error (KvsError.SerializationError msg)) key io =
      (.error (KvsError.SerializationError msg), st) := rfl

/-- C10: opening a directory with no `.kvs` files allocates exactly one
empty segment (named by the clock) as active, with zero bytes, an empty
inactive list and an empty index, and `get` on that fresh store returns
`Ok(None)` for every key. -/
theorem C10_open_fresh_directory (now : Nat) (k : Bytes) :
    KvStore.openStore [] now =
      .ok (Store.mk [(now, [])] 0 now [] []) ∧
    KvStore.get (Store.mk [(now, [])] 0 now [] []) k = .ok none := by
  refine ⟨openStore_nil now, ?_⟩
  simp [KvStore.get, alookup]

/-- C4 counterexample: on the store freshly opened at clock 5, a `set`
whose append fails with an I/O error nonetheless changes the index:
`write_command` runs `key_map.insert` (src/lib.rs line 299) BEFORE
`write_all` (line 312), so the index is not left unchanged as the claim
states. -/
theorem C4_counterexample :
    KvStore.openStore [] 5 = .ok (Store.mk [(5, [])] 0 5 [] []) ∧
    (KvStore.set (Store.mk [(5, [])] 0 5 [] []) [0] [1] (WriteOutcome.fail 0)).1 =
      .error (KvsError.IOError "write") ∧
    (KvStore.set (Store.mk [(5, [])] 0 5 [] []) [0] [1] (WriteOutcome.fail 0)).2.key_map ≠
      (Store.mk [(5, [])] 0 5 [] []).key_map := by
  refine ⟨openStore_nil 5, by decide, by decide⟩

/-- C4 amended: for every `set` or `remove`, the index entry for the key
is updated BEFORE the append is attempted: if the `write_all` fails with
an I/O error — possibly after writing a partial prefix of the record, as
`write_all` permits and spec section 7 acknowledges — the operation
returns the error and `bytes_in_last_file` is not advanced, but the
index already holds the new entry pointing at the intended location
(offset `bytes_in_last_file` of the active segment), and the active
segment retains whatever prefix was written. -/
theorem C4_amended_index_updated_before_append :
    (∀ st : Store, ∀ k v c : Bytes, ∀ n : Nat,
      alookup st.files st.active_file = some c →
      KvStore.set st k v (WriteOutcome.fail n) =
        (.error (KvsError.IOError "write"), { st with
          files := insertA st.files st.active_file
            (c ++ (rmpEncode (.set k v)).take n),
          key_map := insertA st.key_map k
            (ValueData.mk (rmpEncode (.set k v)).length st.bytes_in_last_file
              st.active_file) })) ∧
    (∀ st : Store, ∀ k v c : Bytes, ∀ n : Nat,
      KvStore.get st k = .ok (some v) →
      alookup st.files st.active_file = some c →
      KvStore.remove st k (WriteOutcome.fail n) =
        (.error (KvsError.IOError "write"), { st with
          files := insertA st.files st.active_file
            (c ++ (rmpEncode (.rm k)).take n),
          key_map := insertA st.key_map k
            (ValueData.mk (rmpEncode (.rm k)).length st.bytes_in_last_file
              st.active_file) })) := by
  constructor
  · intro st k v c n hc
    exact write_command_io_fail st (.set k v) k c n hc
  · intro st k v c n hget hc
    rw [KvStore.remove, hget]
    exact write_command_io_fail st (.rm k) k c n hc

theorem C4_witness :
    KvStore.set (Store.mk [(5, [])] 0 5 [] []) [0] [1] (WriteOutcome.fail 1) =
      (.error (KvsError.IOError "write"),
       Store.mk [(5, [0])] 0 5 [] [([0], ValueData.mk 5 0 5)]) :=
  C4_amended_index_updated_before_append.1
    (Store.mk [(5, [])] 0 5 [] []) [0] [1] [] 1 rfl

/-- C5 counterexample: a store whose index entry for key `[0]` points at
bytes that do not decode: `get` fails with a `SerializationError`, yet
`remove` reports `NonExistantKey` instead of surfacing that error — the
source's `if let Ok(Some(_val)) = self.get(..)` (src/lib.rs line 203)
collapses every non-hit outcome, errors included, into `NonExistantKey`. -/
theorem C5_counterexample :
    KvStore.get (Store.mk [(5, [9])] 1 5 [] [([0], ValueData.mk 1 0 5)]) [0] =
      .error (KvsError.SerializationError "decode") ∧
    KvStore.remove (Store.mk [(5, [9])] 1 5 [] [([0], ValueData.mk 1 0 5)]) [0]
      WriteOutcome.ok =
      (.error KvsError.NonExistantKey,
       Store.mk [(5, [9])] 1 5 [] [([0], ValueData.mk 1 0 5)]) := by
  decide

/-- C5 amended: `remove(k)` fails with `NonExistantKey` exactly when
`get(k)` does not return `Ok(Some(_))` — both when the key is absent
(`Ok(None)`) and when the underlying lookup fails with an I/O or decode
error, which is NOT surfaced as its own kind; when `get` hits, `remove`
appends an `Rm` tombstone to the active segment, points the index at it,
and returns `Ok`. -/
theorem C5_amended_remove_dispatch :
    (∀ st : Store, ∀ k : Bytes, ∀ io : WriteOutcome,
      (KvStore.get st k = .ok none ∨ ∃ e, KvStore.get st k = .error e) →
      KvStore.remove st k io = (.error KvsError.NonExistantKey, st)) ∧
    (∀ st : Store, ∀ k v c : Bytes,
      KvStore.get st k = .ok (some v) →
      alookup st.files st.active_file = some c →
      KvStore.remove st k WriteOutcome.ok = (.ok (), { st with
        files := insertA st.files st.active_file (c ++ rmpEncode (.rm k)),
        bytes_in_last_file := st.bytes_in_last_file + (rmpEncode (.rm k)).length,
        key_map := insertA st.key_map k
          (ValueData.mk (rmpEncode (.rm k)).length st.bytes_in_last_file
            st.active_file) })) := by
  constructor
  · intro st k io h
    rcases h with h | ⟨e, h⟩
    · rw [KvStore.remove, h]
    · rw [KvStore.remove, h]
  · intro st k v c hget hc
    rw [KvStore.remove, hget]
    exact write_command_spec st (.rm k) k c hc

theorem C5_witness :
    KvStore.remove (Store.mk [(5, [])] 0 5 [] []) [0] WriteOutcome.ok =
      (.error KvsError.NonExistantKey, Store.mk [(5, [])] 0 5 [] []) :=
  C5_amended_remove_dispatch.1 (Store.mk [(5, [])] 0 5 [] []) [0] WriteOutcome.ok
    (Or.inl rfl)

/-- C6: the rotation policy is NEVER evaluated after an append: no call to
`alloc_new_file_if_needed` exists in the source (it is dead code), so
`set` and `remove` leave the active segment, the inactive list and the
set of segment files untouched no matter how large `bytes_in_last_file`
has grown — while `alloc_new_file_if_needed`, had it been called, would
rotate above the 1,000,000-byte threshold. -/
theorem C6_rotation_never_evaluated :
    (∀ st : Store, ∀ k v : Bytes, ∀ io : WriteOutcome, ∀ r : Except KvsError Unit,
      ∀ st' : Store,
      KvStore.set st k v io = (r, st') →
      st'.active_file = st.active_file ∧ st'.inactive_files = st.inactive_files ∧
      st'.files.map Prod.fst = st.files.map Prod.fst) ∧
    (∀ st : Store, ∀ k : Bytes, ∀ io : WriteOutcome, ∀ r : Except KvsError Unit,
      ∀ st' : Store,
      KvStore.remove st k io = (r, st') →
      st'.active_file = st.active_file ∧ st'.inactive_files = st.inactive_files ∧
      st'.files.map Prod.fst = st.files.map Prod.fst) ∧
    (∀ st : Store, ∀ now : Nat,
      st.bytes_in_last_file > 1000000 → st.inactive_files.length < 10 →
      (alloc_new_file_if_needed st now).2.active_file = now ∧
      (alloc_new_file_if_needed st now).2.inactive_files =
        st.inactive_files ++ [st.active_file] ∧
      (alloc_new_file_if_needed st now).2.bytes_in_last_file = 0) := by
  have hwc : ∀ st : Store, ∀ cmd : KvRecord, ∀ key : Bytes, ∀ io : WriteOutcome,
      ∀ r : Except KvsError Unit, ∀ st' : Store,
      write_command st cmd key io = (r, st') →
      st'.active_file = st.active_file ∧ st'.inactive_files = st.inactive_files ∧
      st'.files.map Prod.fst = st.files.map Prod.fst := by
    intro st cmd key io r st' h
    rw [write_command, write_command_ser] at h
    cases hc : alookup st.files st.active_file with
    | none =>
      simp only [hc] at h
      have h2 := congrArg Prod.snd h
      simp at h2
      rw [← h2]
      exact ⟨rfl, rfl, rfl⟩
    | some c =>
      simp only [hc] at h
      cases io with
      | ok =>
        have h2 := congrArg Prod.snd h
        simp at h2
        rw [← h2]
        refine ⟨rfl, rfl, ?_⟩
        exact insertA_names st.files st.active_file (c ++ rmpEncode cmd)
          (by rw [hc]; rfl)
      | fail n =>
        have h2 := congrArg Prod.snd h
        simp at h2
        rw [← h2]
        refine ⟨rfl, rfl, ?_⟩
        exact insertA_names st.files st.active_file (c ++ (rmpEncode cmd).take n)
          (by rw [hc]; rfl)
  refine ⟨fun st k v io r st' h => hwc st (.set k v) k io r st' h, ?_, ?_⟩
  · intro st k io r st' h
    rw [KvStore.remove] at h
    cases hg : KvStore.get st k with
    | ok o =>
      cases o with
      | none =>
        simp only [hg] at h
        have h2 := congrArg Prod.snd h
        simp at h2
        rw [← h2]
        exact ⟨rfl, rfl, rfl⟩
      | some v =>
        simp only [hg] at h
        exact hwc st (.rm k) k io r st' h
    | error e =>
      simp only [hg] at h
      have h2 := congrArg Prod.snd h
      simp at h2
      rw [← h2]
      exact ⟨rfl, rfl, rfl⟩
  · intro st now h1 h2
    have h2' : ¬ (st.inactive_files.length ≥ 10) := by omega
    simp [alloc_new_file_if_needed, h1, h2']

theorem C6_witness :
    ((Store.mk [(5, [0, 1, 0, 1, 1])] 2000005 5 []
        [([0], ValueData.mk 5 2000000 5)]).active_file =
      (Store.mk [(5, ([] : Bytes))] 2000000 5 [] []).active_file ∧
     (Store.mk [(5, [0, 1, 0, 1, 1])] 2000005 5 []
        [([0], ValueData.mk 5 2000000 5)]).inactive_files =
      (Store.mk [(5, ([] : Bytes))] 2000000 5 [] []).inactive_files ∧
     (Store.mk [(5, [0, 1, 0, 1, 1])] 2000005 5 []
        [([0], ValueData.mk 5 2000000 5)]).files.map Prod.fst =
      (Store.mk [(5, ([] : Bytes))] 2000000 5 [] []).files.map Prod.fst) ∧
    (2000005 : Nat) > 1000000 :=
  ⟨C6_rotation_never_evaluated.1 (Store.mk [(5, [])] 2000000 5 [] []) [0] [1]
      WriteOutcome.ok
      (Except.ok ())
      (Store.mk [(5, [0, 1, 0, 1, 1])] 2000005 5 [] [([0], ValueData.mk 5 2000000 5)])
      rfl,
   by decide⟩

/-- C2 counterexample: with the directory enumerated as file `2` before
file `1` (a `read_dir` order that no code in `open` sorts), replay
processes file `2` first even though `1 < 2`: the index ends up pointing
at file `1`'s record and file `1` — the OLDEST name, merely the
last-enumerated — becomes active.  The spec-prescribed sorted open
(`specOpenSorted`) gives a different store: active file `2` and the index
pointing at file `2`'s record.  So replay is enumeration-order, not
ascending-filename order. -/
theorem C2_counterexample :
    KvStore.openStore [(2, [0, 1, 0, 1, 1]), (1, [0, 1, 0, 1, 2])] 9 =
      .ok (Store.mk [(2, [0, 1, 0, 1, 1]), (1, [0, 1, 0, 1, 2])] 5 1 [2]
        [([0], ValueData.mk 5 0 1)]) ∧
    specOpenSorted [(2, [0, 1, 0, 1, 1]), (1, [0, 1, 0, 1, 2])] 9 =
      .ok (Store.mk [(1, [0, 1, 0, 1, 2]), (2, [0, 1, 0, 1, 1])] 5 2 [1]
        [([0], ValueData.mk 5 0 2)]) ∧
    KvStore.get (Store.mk [(2, [0, 1, 0, 1, 1]), (1, [0, 1, 0, 1, 2])] 5 1 [2]
        [([0], ValueData.mk 5 0 1)]) [0] = .ok (some [2]) ∧
    KvStore.get (Store.mk [(1, [0, 1, 0, 1, 2]), (2, [0, 1, 0, 1, 1])] 5 2 [1]
        [([0], ValueData.mk 5 0 2)]) [0] = .ok (some [1]) := by
  decide

/-- C2 amended: on open, segment files are processed in `read_dir`
ENUMERATION order (no sort happens), with records in file order; the
LAST-ENUMERATED segment is designated active and the others inactive;
and the resulting index maps every key to the location of the last
record seen for that key during this replay. -/
theorem C2_amended_replay_enumeration_order
    (listing : List (Nat × Bytes)) (now : Nat) (st : Store)
    (hne : listing ≠ [])
    (h : KvStore.openStore listing now = .ok st) :
    st.files = listing ∧
    st.active_file = (listing.getLast hne).1 ∧
    st.inactive_files = listing.dropLast.map Prod.fst ∧
    ∃ recs, deserialize_files listing (st.inactive_files ++ [st.active_file]) = .ok recs ∧
      ∀ k, alookup st.key_map k =
        (lastMatch (fun rv => decide (recKey rv.1 = k)) recs).map Prod.snd := by
  have hnew : KvStore.new listing now =
      Store.mk listing (listing.getLast hne).2.length (listing.getLast hne).1
        (listing.dropLast.map Prod.fst) [] := by
    rw [KvStore.new, List.getLast?_eq_getLast listing hne]
  simp only [KvStore.openStore, hnew] at h
  cases hdes : deserialize_files listing (listing.dropLast.map Prod.fst ++ [(listing.getLast hne).1]) with
  | error e => rw [hdes] at h; exact absurd h (by simp)
  | ok recs =>
    rw [hdes] at h
    have h' : Except.ok (Store.mk listing (listing.getLast hne).2.length
        (listing.getLast hne).1 (listing.dropLast.map Prod.fst)
        (recs.foldl (fun m rv => insertA m (recKey rv.1) rv.2) [])) = Except.ok st := h
    have hst : Store.mk listing (listing.getLast hne).2.length
        (listing.getLast hne).1 (listing.dropLast.map Prod.fst)
        (recs.foldl (fun m rv => insertA m (recKey rv.1) rv.2) []) = st := by
      injection h'
    subst hst
    refine ⟨rfl, rfl, rfl, recs, hdes, ?_⟩
    intro k
    have hfold := alookup_foldl_insertA (fun rv : KvRecord × ValueData => recKey rv.1)
      (fun rv : KvRecord × ValueData => rv.2) recs [] k
    rw [hfold]
    cases lastMatch (fun rv : KvRecord × ValueData => decide (recKey rv.1 = k)) recs with
    | some x => rfl
    | none => rfl

/-- C1: on a freshly opened store, a successful `set(k,v)` followed by
`get(k)` returns `Ok(Some(v))`, and the bytes read back from the active
segment at the recorded offset and length decode to the very `Set(k,v)`
record that was written. -/
theorem C1_set_then_get (k v : Bytes) (now : Nat) (st0 st1 : Store)
    (h0 : KvStore.openStore [] now = .ok st0)
    (h1 : KvStore.set st0 k v WriteOutcome.ok = (.ok (), st1)) :
    KvStore.get st1 k = .ok (some v) ∧
    ∃ vd c, alookup st1.key_map k = some vd ∧ vd.file_path = st1.active_file ∧
      alookup st1.files st1.active_file = some c ∧
      rmpDecodeOne (List.take vd.size (List.drop vd.offset c)) =
        some (.set k v, []) := by
  have h0' : Store.mk [(now, [])] 0 now [] [] = st0 := by
    have h2 := (openStore_nil now).symm.trans h0
    injection h2
  subst h0'
  have hset := write_command_spec (Store.mk [(now, [])] 0 now [] []) (.set k v) k []
    (by simp [alookup])
  rw [KvStore.set] at h1
  have h1' := hset.symm.trans h1
  have hst1 : _ = st1 := congrArg Prod.snd h1'
  subst hst1
  simp only [List.nil_append]
  constructor
  · have hget := get_spec_hit
      { Store.mk [(now, [])] 0 now [] [] with
        files := insertA [(now, [])] now (rmpEncode (.set k v)),
        bytes_in_last_file := 0 + (rmpEncode (.set k v)).length,
        key_map := insertA [] k (ValueData.mk (rmpEncode (.set k v)).length 0 now) }
      k (ValueData.mk (rmpEncode (.set k v)).length 0 now) (.set k v) [] []
      (by simp [insertA, alookup])
      (by simp [insertA, alookup])
      rfl rfl
    simpa using hget
  · refine ⟨ValueData.mk (rmpEncode (.set k v)).length 0 now, rmpEncode (.set k v),
      by simp [insertA, alookup], rfl, by simp [insertA, alookup], ?_⟩
    simp only [List.drop_zero, List.take_length]
    exact rmpDecodeOne_encode_nil (.set k v)

/-- C7: after `set(k,v)` and a successful `remove(k)` on a freshly opened
store, `get(k)` returns `Ok(None)`: the index entry points at the
appended `Rm` tombstone, and `get` treats the decoded `Rm` record as
"not present" rather than as an error. -/
theorem C7_set_remove_get_none (k v : Bytes) (now : Nat) (st0 st1 st2 : Store)
    (h0 : KvStore.openStore [] now = .ok st0)
    (h1 : KvStore.set st0 k v WriteOutcome.ok = (.ok (), st1))
    (h2 : KvStore.remove st1 k WriteOutcome.ok = (.ok (), st2)) :
    KvStore.get st2 k = .ok none ∧
    ∃ vd c, alookup st2.key_map k = some vd ∧ vd.file_path = st2.active_file ∧
      alookup st2.files st2.active_file = some c ∧
      rmpDecodeOne (List.take vd.size (List.drop vd.offset c)) =
        some (.rm k, []) := by
  have h0' : Store.mk [(now, [])] 0 now [] [] = st0 := by
    have hx := (openStore_nil now).symm.trans h0
    injection hx
  subst h0'
  have hset := write_command_spec (Store.mk [(now, [])] 0 now [] []) (.set k v) k []
    (by simp [alookup])
  rw [KvStore.set] at h1
  have h1' := hset.symm.trans h1
  have hst1 : _ = st1 := congrArg Prod.snd h1'
  subst hst1
  set encS := rmpEncode (.set k v) with hencS
  set st1' : Store :=
    { Store.mk [(now, [])] 0 now [] [] with
      files := insertA [(now, [])] now ([] ++ encS),
      bytes_in_last_file := 0 + encS.length,
      key_map := insertA [] k (ValueData.mk encS.length 0 now) } with hst1'
  have hget1 : KvStore.get st1' k = .ok (some v) := by
    have hget := get_spec_hit st1' k (ValueData.mk encS.length 0 now) (.set k v) [] []
      (by simp [hst1', insertA, alookup])
      (by simp [hst1', insertA, alookup, hencS])
      rfl (by rw [hencS])
    simpa using hget
  rw [KvStore.remove, hget1] at h2
  have hrm := write_command_spec st1' (.rm k) k encS
    (by simp [hst1', insertA, alookup])
  have h2' := hrm.symm.trans h2
  have hst2 : _ = st2 := congrArg Prod.snd h2'
  subst hst2
  set encR := rmpEncode (.rm k) with hencR
  constructor
  · have hget := get_spec_hit
      { st1' with
        files := insertA st1'.files st1'.active_file (encS ++ encR),
        bytes_in_last_file := st1'.bytes_in_last_file + encR.length,
        key_map := insertA st1'.key_map k
          (ValueData.mk encR.length st1'.bytes_in_last_file st1'.active_file) }
      k (ValueData.mk encR.length st1'.bytes_in_last_file st1'.active_file) (.rm k)
      encS []
      (by simp [hst1', insertA, alookup])
      (by simp [hst1', insertA, alookup, hencR])
      (by simp [hst1']) (by rw [hencR])
    simpa using hget
  · refine ⟨ValueData.mk encR.length st1'.bytes_in_last_file st1'.active_file,
      encS ++ encR,
      by simp [hst1', insertA, alookup], by simp [hst1'], by simp [hst1', insertA, alookup], ?_⟩
    have hb : st1'.bytes_in_last_file = encS.length := by simp [hst1']
    rw [hb, List.drop_left, List.take_length]
    exact rmpDecodeOne_encode_nil (.rm k)

theorem C1_witness :
    KvStore.get (Store.mk [(5, [0, 1, 0, 1, 1])] 5 5 []
      [([0], ValueData.mk 5 0 5)]) [0] = .ok (some [1]) ∧
    ∃ vd c, alookup (Store.mk [(5, [0, 1, 0, 1, 1])] 5 5 []
        [([0], ValueData.mk 5 0 5)]).key_map [0] = some vd ∧
      vd.file_path = (Store.mk [(5, [0, 1, 0, 1, 1])] 5 5 []
        [([0], ValueData.mk 5 0 5)]).active_file ∧
      alookup (Store.mk [(5, [0, 1, 0, 1, 1])] 5 5 []
          [([0], ValueData.mk 5 0 5)]).files
        (Store.mk [(5, [0, 1, 0, 1, 1])] 5 5 []
          [([0], ValueData.mk 5 0 5)]).active_file = some c ∧
      rmpDecodeOne (List.take vd.size (List.drop vd.offset c)) =
        some (.set [0] [1], []) :=
  C1_set_then_get [0] [1] 5 (Store.mk [(5, [])] 0 5 [] [])
    (Store.mk [(5, [0, 1, 0, 1, 1])] 5 5 [] [([0], ValueData.mk 5 0 5)]) rfl rfl

theorem C7_witness :
    KvStore.get (Store.mk [(5, [0, 1, 0, 1, 1, 1, 1, 0])] 8 5 []
      [([0], ValueData.mk 3 5 5)]) [0] = .ok none ∧
    ∃ vd c, alookup (Store.mk [(5, [0, 1, 0, 1, 1, 1, 1, 0])] 8 5 []
        [([0], ValueData.mk 3 5 5)]).key_map [0] = some vd ∧
      vd.file_path = (Store.mk [(5, [0, 1, 0, 1, 1, 1, 1, 0])] 8 5 []
        [([0], ValueData.mk 3 5 5)]).active_file ∧
      alookup (Store.mk [(5, [0, 1, 0, 1, 1, 1, 1, 0])] 8 5 []
          [([0], ValueData.mk 3 5 5)]).files
        (Store.mk [(5, [0, 1, 0, 1, 1, 1, 1, 0])] 8 5 []
          [([0], ValueData.mk 3 5 5)]).active_file = some c ∧
      rmpDecodeOne (List.take vd.size (List.drop vd.offset c)) =
        some (.rm [0], []) :=
  C7_set_remove_get_none [0] [1] 5 (Store.mk [(5, [])] 0 5 [] [])
    (Store.mk [(5, [0, 1, 0, 1, 1])] 5 5 [] [([0], ValueData.mk 5 0 5)])
    (Store.mk [(5, [0, 1, 0, 1, 1, 1, 1, 0])] 8 5 [] [([0], ValueData.mk 3 5 5)])
    rfl rfl rfl

theorem C2_witness :
    (Store.mk [(2, [0, 1, 0, 1, 1]), (1, [0, 1, 0, 1, 2])] 5 1 [2]
      [([0], ValueData.mk 5 0 1)]).active_file =
    (([(2, [0, 1, 0, 1, 1]), (1, [0, 1, 0, 1, 2])] : List (Nat × Bytes)).getLast
      (by decide)).1 :=
  (C2_amended_replay_enumeration_order
    [(2, [0, 1, 0, 1, 1]), (1, [0, 1, 0, 1, 2])] 9
    (Store.mk [(2, [0, 1, 0, 1, 1]), (1, [0, 1, 0, 1, 2])] 5 1 [2]
      [([0], ValueData.mk 5 0 1)])
    (by decide) rfl).2.1

theorem alookup_isSome_iff {κ α : Type} [DecidableEq κ] (l : List (κ × α)) (k : κ) :
    (alookup l k).isSome ↔ k ∈ l.map Prod.fst := by
  induction l with
  | nil => simp [alookup]
  | cons e rest ih =>
    by_cases h : e.1 = k
    · simp [alookup, h]
    · rw [alookup, if_neg h, List.map_cons]
      simp only [List.mem_cons]
      constructor
      · intro hs; exact Or.inr (ih.mp hs)
      · intro hm
        rcases hm with hm | hm
        · exact absurd hm.symm h
        · exact ih.mpr hm

theorem mem_insertA {κ α : Type} [DecidableEq κ] {l : List (κ × α)} {k : κ}
    {v : α} {x : κ × α} (h : x ∈ insertA l k v) : x = (k, v) ∨ x ∈ l := by
  induction l with
  | nil =>
    rw [insertA] at h
    exact Or.inl (List.mem_singleton.mp h)
  | cons e rest ih =>
    by_cases he : e.1 = k
    · rw [insertA, if_pos he] at h
      rcases List.mem_cons.mp h with h1 | h1
      · exact Or.inl h1
      · exact Or.inr (List.mem_cons_of_mem e h1)
    · rw [insertA, if_neg he] at h
      rcases List.mem_cons.mp h with h1 | h1
      · exact Or.inr (h1 ▸ List.mem_cons_self e rest)
      · rcases ih h1 with h2 | h2
        · exact Or.inl h2
        · exact Or.inr (List.mem_cons_of_mem e h2)

theorem alookup_of_mem_nodup {κ α : Type} [DecidableEq κ] {l : List (κ × α)}
    (hnd : (l.map Prod.fst).Nodup) {e : κ × α} (he : e ∈ l) :
    alookup l e.1 = some e.2 := by
  induction l with
  | nil => simp at he
  | cons x rest ih =>
    rcases List.mem_cons.mp he with h | h
    · rw [h, alookup, if_pos rfl]
    · have hx : x.1 ≠ e.1 := by
        intro hc
        have : e.1 ∈ rest.map Prod.fst := List.mem_map_of_mem Prod.fst h
        rw [← hc] at this
        exact (List.nodup_cons.mp hnd).1 this
      rw [alookup, if_neg hx]
      exact ih (List.nodup_cons.mp hnd).2 h

theorem insertA_nodup {κ α : Type} [DecidableEq κ] {l : List (κ × α)}
    (h : (l.map Prod.fst).Nodup) (k : κ) (v : α) :
    ((insertA l k v).map Prod.fst).Nodup := by
  induction l with
  | nil => simp [insertA]
  | cons e rest ih =>
    rw [List.map_cons, List.nodup_cons] at h
    by_cases he : e.1 = k
    · rw [insertA, if_pos he, List.map_cons, List.nodup_cons]
      exact ⟨by rw [← he]; exact h.1, h.2⟩
    · rw [insertA, if_neg he, List.map_cons, List.nodup_cons]
      constructor
      · intro hc
        rcases (List.mem_map.mp hc) with ⟨x, hx1, hx2⟩
        rcases mem_insertA hx1 with hx | hx
        · rw [hx] at hx2
          exact he hx2.symm
        · exact h.1 (hx2 ▸ List.mem_map_of_mem Prod.fst hx)
      · exact ih h.2

theorem map_fst_filter {κ α : Type} (q : κ → Bool) (l : List (κ × α)) :
    (l.filter (fun e => q e.1)).map Prod.fst = (l.map Prod.fst).filter q := by
  induction l with
  | nil => simp
  | cons e rest ih =>
    by_cases h : q e.1 <;> simp [List.filter_cons, h, ih]

theorem foldl_eq_fun {α β : Type} (f g : α → β → α) (h : ∀ a b, f a b = g a b)
    (l : List β) (init : α) : l.foldl f init = l.foldl g init := by
  have hfg : f = g := funext (fun a => funext (h a))
  rw [hfg]

theorem foldl_insertA_nodup {κ α β : Type} [DecidableEq κ] (f : β → κ) (g : β → α)
    (l : List β) :
    ∀ init : List (κ × α), (init.map Prod.fst).Nodup →
    (((l.foldl (fun m x => insertA m (f x) (g x)) init).map Prod.fst)).Nodup := by
  induction l with
  | nil => intro init h; exact h
  | cons x rest ih =>
    intro init h
    exact ih (insertA init (f x) (g x)) (insertA_nodup h (f x) (g x))

/-- If `deserialize_files` succeeds, every requested path was readable and
its file streamed without error, contributing its records to the output. -/
theorem deserialize_files_mem_paths {fs : List (Nat × Bytes)} :
    ∀ {paths : List Nat} {recs : List (KvRecord × ValueData)},
    deserialize_files fs paths = .ok recs → ∀ p ∈ paths,
    ∃ c sub, alookup fs p = some c ∧ deserializeFile p c = .ok sub ∧
      ∀ x ∈ sub, x ∈ recs := by
  intro paths
  induction paths with
  | nil => intro recs h p hp; simp at hp
  | cons q rest ih =>
    intro recs h p hp
    rw [deserialize_files] at h
    cases hq : alookup fs q with
    | none => rw [hq] at h; simp at h
    | some c =>
      simp only [hq] at h
      cases hdf : deserializeFile q c with
      | error e => simp [hdf] at h
      | ok sub =>
        simp only [hdf] at h
        cases hrest : deserialize_files fs rest with
        | error e => simp [hrest] at h
        | ok recs2 =>
          simp only [hrest, Except.ok.injEq] at h
          rcases List.mem_cons.mp hp with hpq | hpr
          · subst hpq
            exact ⟨c, sub, hq, hdf, fun x hx => h ▸ List.mem_append_left recs2 hx⟩
          · obtain ⟨c2, sub2, h1, h2, h3⟩ := ih hrest p hpr
            exact ⟨c2, sub2, h1, h2, fun x hx => h ▸ List.mem_append_right sub (h3 x hx)⟩

/-- Every record the replay produces comes from one of the requested files,
at one of the locations the streaming reader emits for that file. -/
theorem deserialize_files_mem_recs {fs : List (Nat × Bytes)} :
    ∀ {paths : List Nat} {recs : List (KvRecord × ValueData)},
    deserialize_files fs paths = .ok recs → ∀ x ∈ recs,
    ∃ p c sub, p ∈ paths ∧ alookup fs p = some c ∧
      deserializeFile p c = .ok sub ∧ x ∈ sub := by
  intro paths
  induction paths with
  | nil =>
    intro recs h x hx
    rw [deserialize_files] at h
    simp only [Except.ok.injEq] at h
    rw [← h] at hx
    simp at hx
  | cons q rest ih =>
    intro recs h x hx
    rw [deserialize_files] at h
    cases hq : alookup fs q with
    | none => rw [hq] at h; simp at h
    | some c =>
      simp only [hq] at h
      cases hdf : deserializeFile q c with
      | error e => simp [hdf] at h
      | ok sub =>
        simp only [hdf] at h
        cases hrest : deserialize_files fs rest with
        | error e => simp [hrest] at h
        | ok recs2 =>
          simp only [hrest, Except.ok.injEq] at h
          rw [← h] at hx
          rcases List.mem_append.mp hx with hx1 | hx1
          · exact ⟨q, c, sub, List.mem_cons_self q rest, hq, hdf, hx1⟩
          · obtain ⟨p, c2, sub2, h1, h2, h3, h4⟩ := ih hrest x hx1
            exact ⟨p, c2, sub2, List.mem_cons_of_mem q h1, h2, h3, h4⟩

/-- Running `removeFiles` on distinct, present paths: every listed entry is removed
and nothing else. -/
theorem removeFiles_spec :
    ∀ (paths : List Nat) (fs : List (Nat × Bytes)),
    (∀ p ∈ paths, p ∈ fs.map Prod.fst) → paths.Nodup →
    removeFiles fs paths = .ok (fs.filter (fun e => decide (e.1 ∉ paths))) := by
  intro paths
  induction paths with
  | nil =>
    intro fs _ _
    rw [removeFiles]
    simp
  | cons q rest ih =>
    intro fs hmem hnd
    have hq : (alookup fs q).isSome :=
      (alookup_isSome_iff fs q).mpr (hmem q (List.mem_cons_self q rest))
    obtain ⟨c, hlq⟩ := Option.isSome_iff_exists.mp hq
    have hrest : ∀ p ∈ rest, p ∈ (eraseA fs q).map Prod.fst := by
      intro p hp
      have hpq : p ≠ q := by
        intro hc
        rw [hc] at hp
        exact (List.nodup_cons.mp hnd).1 hp
      rw [← alookup_isSome_iff, alookup_eraseA]
      rw [if_neg (fun hc => hpq hc.symm)]
      exact (alookup_isSome_iff fs p).mpr (hmem p (List.mem_cons_of_mem q hp))
    simp only [removeFiles, hlq]
    rw [ih (eraseA fs q) hrest (List.nodup_cons.mp hnd).2]
    rw [eraseA, List.filter_filter]
    simp only [Except.ok.injEq]
    apply List.filter_congr
    intro e _
    by_cases h1 : e.1 = q <;> by_cases h2 : e.1 ∈ rest <;>
      simp [h1, h2, List.mem_cons]

theorem liveRecs_nil : liveRecs [] = [] := rfl

theorem liveRecs_cons_some (k v : Bytes) (m : List (Bytes × Option Bytes)) :
    liveRecs ((k, some v) :: m) = KvRecord.set k v :: liveRecs m := rfl

theorem liveRecs_cons_none (k : Bytes) (m : List (Bytes × Option Bytes)) :
    liveRecs ((k, none) :: m) = liveRecs m := rfl

theorem map_appendIf_id (p : Nat) (fs : List (Nat × Bytes)) :
    fs.map (fun e => if e.1 = p then (e.1, e.2 ++ ([] : Bytes)) else e) = fs := by
  have : ∀ e : Nat × Bytes, (if e.1 = p then (e.1, e.2 ++ ([] : Bytes)) else e) = e := by
    intro e
    by_cases h : e.1 = p
    · rw [if_pos h, List.append_nil]
    · rw [if_neg h]
  simp only [this, List.map_id']

theorem map_appendIf_comp (p : Nat) (a b : Bytes) (fs : List (Nat × Bytes)) :
    (fs.map (fun e => if e.1 = p then (e.1, e.2 ++ a) else e)).map
      (fun e => if e.1 = p then (e.1, e.2 ++ b) else e) =
    fs.map (fun e => if e.1 = p then (e.1, e.2 ++ (a ++ b)) else e) := by
  rw [List.map_map]
  apply List.map_congr_left
  intro e _
  by_cases h : e.1 = p
  · simp [Function.comp, h, List.append_assoc]
  · simp [Function.comp, h]

/-- Full characterization of the compaction write loop
(src/lib.rs lines 380-398): it appends exactly the encodings of the live
records to the compacted file, advances `next_offset` by their total
length, re-indexes every live key at its new location (one of the
locations the streaming reader will emit for the new file), erases every
dead key, and leaves keys outside the map untouched. -/
theorem compact_foldl_spec (compacted : Nat) :
    ∀ (entries : List (Bytes × Option Bytes)) (fs : List (Nat × Bytes))
      (km : List (Bytes × ValueData)) (off : Nat),
    (entries.map Prod.fst).Nodup →
    (entries.foldl (compactStep compacted) (fs, km, off)).1 =
      fs.map (fun e => if e.1 = compacted
        then (e.1, e.2 ++ encAll (liveRecs entries)) else e) ∧
    (entries.foldl (compactStep compacted) (fs, km, off)).2.2 =
      off + (encAll (liveRecs entries)).length ∧
    (∀ k, k ∉ entries.map Prod.fst →
      alookup (entries.foldl (compactStep compacted) (fs, km, off)).2.1 k =
        alookup km k) ∧
    (∀ k, (k, (none : Option Bytes)) ∈ entries →
      alookup (entries.foldl (compactStep compacted) (fs, km, off)).2.1 k = none) ∧
    (∀ k v, (k, some v) ∈ entries →
      ∃ vd, alookup (entries.foldl (compactStep compacted) (fs, km, off)).2.1 k =
          some vd ∧
        (KvRecord.set k v, vd) ∈ offsetsFrom compacted off (liveRecs entries)) := by
  intro entries
  induction entries with
  | nil =>
    intro fs km off _
    refine ⟨?_, by simp [liveRecs_nil, encAll_nil], fun k _ => rfl, by simp, by simp⟩
    rw [liveRecs_nil, encAll_nil, map_appendIf_id]
    rfl
  | cons e rest ih =>
    intro fs km off hnd
    obtain ⟨k1, x⟩ := e
    rw [List.map_cons, List.nodup_cons] at hnd
    obtain ⟨hk1, hnd2⟩ := hnd
    cases x with
    | some v =>
      rw [List.foldl_cons]
      have hstep : compactStep compacted (fs, km, off) (k1, some v) =
          (fs.map (fun e => if e.1 = compacted
             then (e.1, e.2 ++ rmpEncode (.set k1 v)) else e),
           insertA km k1
             (ValueData.mk (rmpEncode (.set k1 v)).length off compacted),
           off + (rmpEncode (.set k1 v)).length) := rfl
      rw [hstep]
      obtain ⟨ih1, ih2, ih3, ih4, ih5⟩ := ih
        (fs.map (fun e => if e.1 = compacted
           then (e.1, e.2 ++ rmpEncode (.set k1 v)) else e))
        (insertA km k1 (ValueData.mk (rmpEncode (.set k1 v)).length off compacted))
        (off + (rmpEncode (.set k1 v)).length) hnd2
      refine ⟨?_, ?_, ?_, ?_, ?_⟩
      · rw [ih1, map_appendIf_comp, liveRecs_cons_some, encAll_cons]
      · rw [ih2, liveRecs_cons_some, encAll_cons, List.length_append]
        omega
      · intro k hk
        rw [List.map_cons, List.mem_cons] at hk
        push_neg at hk
        rw [ih3 k hk.2, alookup_insertA, if_neg (fun hc => hk.1 hc.symm)]
      · intro k hkmem
        rcases List.mem_cons.mp hkmem with hh | hh
        · exact absurd (congrArg Prod.snd hh) (by simp)
        · exact ih4 k hh
      · intro k v0 hkmem
        rcases List.mem_cons.mp hkmem with hh | hh
        · have hk : k = k1 := congrArg Prod.fst hh
          have hv : v0 = v := by
            have := congrArg Prod.snd hh
            simpa using this
          subst hk
          subst hv
          have hnotin : k ∉ rest.map Prod.fst := hk1
          refine ⟨ValueData.mk (rmpEncode (.set k v0)).length off compacted, ?_, ?_⟩
          · rw [ih3 k hnotin, alookup_insertA, if_pos rfl]
          · rw [liveRecs_cons_some, offsetsFrom]
            exact List.mem_cons_self _ _
        · obtain ⟨vd, hvd1, hvd2⟩ := ih5 k v0 hh
          refine ⟨vd, hvd1, ?_⟩
          rw [liveRecs_cons_some, offsetsFrom]
          exact List.mem_cons_of_mem _ hvd2
    | none =>
      rw [List.foldl_cons]
      have hstep : compactStep compacted (fs, km, off) (k1, none) =
          (fs, eraseA km k1, off) := rfl
      rw [hstep]
      obtain ⟨ih1, ih2, ih3, ih4, ih5⟩ := ih fs (eraseA km k1) off hnd2
      refine ⟨?_, ?_, ?_, ?_, ?_⟩
      · rw [ih1, liveRecs_cons_none]
      · rw [ih2, liveRecs_cons_none]
      · intro k hk
        rw [List.map_cons, List.mem_cons] at hk
        push_neg at hk
        rw [ih3 k hk.2, alookup_eraseA, if_neg (fun hc => hk.1 hc.symm)]
      · intro k hkmem
        rcases List.mem_cons.mp hkmem with hh | hh
        · have hk : k = k1 := congrArg Prod.fst hh
          subst hk
          rw [ih3 k hk1, alookup_eraseA, if_pos rfl]
        · exact ih4 k hh
      · intro k v0 hkmem
        rcases List.mem_cons.mp hkmem with hh | hh
        · exact absurd (congrArg Prod.snd hh) (by simp)
        · obtain ⟨vd, hvd1, hvd2⟩ := ih5 k v0 hh
          exact ⟨vd, hvd1, by rw [liveRecs_cons_none]; exact hvd2⟩

theorem alookup_append {κ α : Type} [DecidableEq κ] (a b : List (κ × α)) (k : κ) :
    alookup (a ++ b) k =
      match alookup a k with
      | some v => some v
      | none => alookup b k := by
  induction a with
  | nil => simp [alookup]
  | cons e rest ih =>
    by_cases he : e.1 = k
    · simp [alookup, he]
    · rw [List.cons_append, alookup, if_neg he, alookup, if_neg he, ih]

theorem alookup_filter_keys {κ α : Type} [DecidableEq κ] (q : κ → Bool)
    (l : List (κ × α)) (k : κ) (hq : q k = true) :
    alookup (l.filter (fun e => q e.1)) k = alookup l k := by
  induction l with
  | nil => rfl
  | cons e rest ih =>
    by_cases he : e.1 = k
    · rw [List.filter_cons, if_pos (by rw [he]; exact hq), alookup, if_pos he,
        alookup, if_pos he]
    · by_cases hqe : q e.1 = true
      · rw [List.filter_cons, if_pos hqe, alookup, if_neg he, alookup, if_neg he, ih]
      · rw [List.filter_cons, if_neg hqe, alookup, if_neg he, ih]

theorem map_appendIf_not_mem (p : Nat) (b : Bytes) (fs : List (Nat × Bytes))
    (h : alookup fs p = none) :
    fs.map (fun e => if e.1 = p then (e.1, e.2 ++ b) else e) = fs := by
  have h2 := (alookup_none_iff fs p).mp h
  have hpt : ∀ e ∈ fs, (if e.1 = p then (e.1, e.2 ++ b) else e) = id e := by
    intro e he
    rw [if_neg (h2 e he)]
    rfl
  rw [List.map_congr_left hpt, List.map_id]

theorem set_map_fun_eq :
    (fun (m : List (Bytes × Option Bytes)) (rv : KvRecord × ValueData) =>
      match rv.1 with
      | KvRecord.set k v => insertA m k (some v)
      | KvRecord.rm k => insertA m k none) =
    (fun m rv => insertA m (recKey rv.1) (recVal rv.1)) := by
  funext m rv
  cases hr : rv.1 <;> simp [hr, recKey, recVal]

/-- The replay map of compaction: its binding for `k` is determined by the
last record for `k` in the replay stream. -/
theorem alookup_set_map (recs : List (KvRecord × ValueData)) (k : Bytes) :
    alookup (recs.foldl (fun m rv =>
      match rv.1 with
      | KvRecord.set k2 v => insertA m k2 (some v)
      | KvRecord.rm k2 => insertA m k2 none) []) k =
    match lastMatch (fun rv => decide (recKey rv.1 = k)) recs with
    | some rv => some (recVal rv.1)
    | none => none := by
  rw [set_map_fun_eq, alookup_foldl_insertA]
  cases lastMatch (fun rv => decide (recKey rv.1 = k)) recs with
  | some rv => rfl
  | none => rfl

theorem set_map_nodup (recs : List (KvRecord × ValueData)) :
    ((recs.foldl (fun m rv =>
      match rv.1 with
      | KvRecord.set k2 v => insertA m k2 (some v)
      | KvRecord.rm k2 => insertA m k2 none) []).map Prod.fst).Nodup := by
  rw [set_map_fun_eq]
  exact foldl_insertA_nodup _ _ recs [] (by simp)

theorem liveRecs_filter_not_mem (k : Bytes) :
    ∀ m : List (Bytes × Option Bytes), k ∉ m.map Prod.fst →
    (liveRecs m).filter (fun r => decide (recKey r = k)) = [] := by
  intro m
  induction m with
  | nil => intro _; rfl
  | cons e rest ih =>
    intro h
    rw [List.map_cons, List.mem_cons] at h
    push_neg at h
    obtain ⟨k1, x⟩ := e
    cases x with
    | some v =>
      have hne : ¬ (recKey (KvRecord.set k1 v) = k) := fun hc => h.1 hc.symm
      rw [liveRecs_cons_some, List.filter_cons,
        if_neg (by simp only [decide_eq_true_eq]; exact hne)]
      exact ih h.2
    | none =>
      rw [liveRecs_cons_none]
      exact ih h.2

/-- In a duplicate-free replay map, the live image holds exactly one
`Set(k, v)` record for a live key `k` (bound to `some v`) and none for a
dead or unseen key. -/
theorem liveRecs_filter (k : Bytes) :
    ∀ m : List (Bytes × Option Bytes), (m.map Prod.fst).Nodup →
    (liveRecs m).filter (fun r => decide (recKey r = k)) =
      match alookup m k with
      | some (some v) => [KvRecord.set k v]
      | _ => [] := by
  intro m
  induction m with
  | nil => intro _; rfl
  | cons e rest ih =>
    intro hnd
    obtain ⟨k1, x⟩ := e
    rw [List.map_cons, List.nodup_cons] at hnd
    obtain ⟨hk1, hnd2⟩ := hnd
    cases x with
    | some v =>
      by_cases hkk : k1 = k
      · subst hkk
        rw [liveRecs_cons_some, List.filter_cons,
          if_pos (by simp [recKey]), liveRecs_filter_not_mem k1 rest hk1,
          alookup, if_pos rfl]
      · rw [liveRecs_cons_some, List.filter_cons,
          if_neg (by simp only [decide_eq_true_eq]; exact hkk),
          ih hnd2, alookup, if_neg hkk]
    | none =>
      by_cases hkk : k1 = k
      · subst hkk
        rw [liveRecs_cons_none, liveRecs_filter_not_mem k1 rest hk1,
          alookup, if_pos rfl]
      · rw [liveRecs_cons_none, ih hnd2, alookup, if_neg hkk]

/-- Master lemma for a successful compaction run: the directory collapses
to the single fresh segment holding the encodings of the live records,
the byte counter equals its length, live keys are re-indexed at
locations of the new file, dead keys are erased, and unseen keys keep
their old binding. -/
theorem compact_files_ok (st : Store) (now : Nat) (st' : Store)
    (hnames : st.files.map Prod.fst = st.inactive_files ++ [st.active_file])
    (hnodup : (st.files.map Prod.fst).Nodup)
    (hfresh : alookup st.files now = none)
    (h : KvStore.compact_files st now = (.ok (), st')) :
    ∃ recs, deserialize_files st.files (st.inactive_files ++ [st.active_file]) =
        .ok recs ∧
    ∃ sm : List (Bytes × Option Bytes),
      sm = recs.foldl (fun m rv =>
        match rv.1 with
        | KvRecord.set k v => insertA m k (some v)
        | KvRecord.rm k => insertA m k none) [] ∧
      st'.files = [(now, encAll (liveRecs sm))] ∧
      st'.active_file = now ∧
      st'.inactive_files = [] ∧
      st'.bytes_in_last_file = (encAll (liveRecs sm)).length ∧
      (∀ k, k ∉ sm.map Prod.fst → alookup st'.key_map k = alookup st.key_map k) ∧
      (∀ k, (k, (none : Option Bytes)) ∈ sm → alookup st'.key_map k = none) ∧
      (∀ k v, (k, some v) ∈ sm → ∃ vd, alookup st'.key_map k = some vd ∧
        (KvRecord.set k v, vd) ∈ offsetsFrom now 0 (liveRecs sm)) := by
  rw [KvStore.compact_files] at h
  cases hdes : deserialize_files st.files (st.inactive_files ++ [st.active_file]) with
  | error e =>
    rw [hdes] at h
    exact absurd (congrArg Prod.fst h) (by simp)
  | ok recs =>
    simp only [hdes] at h
    refine ⟨recs, rfl, ?_⟩
    set sm : List (Bytes × Option Bytes) := recs.foldl (fun m rv =>
      match rv.1 with
      | KvRecord.set k v => insertA m k (some v)
      | KvRecord.rm k => insertA m k none) [] with hsm
    set fs1 : List (Nat × Bytes) := insertA st.files now [] with hfs1
    set folded := sm.foldl (compactStep now) (fs1, st.key_map, 0) with hfolded
    have hnd_sm : (sm.map Prod.fst).Nodup := by rw [hsm]; exact set_map_nodup recs
    obtain ⟨hf1, hf2, hf3, hf4, hf5⟩ :=
      compact_foldl_spec now sm fs1 st.key_map 0 hnd_sm
    have hfs1_eq : fs1 = st.files ++ [(now, [])] := by
      rw [hfs1]
      exact insertA_of_not_mem st.files now [] hfresh
    have hnow_not : now ∉ st.files.map Prod.fst := by
      rw [← alookup_isSome_iff, hfresh]
      simp
    have hfolded1 : folded.1 = st.files ++ [(now, encAll (liveRecs sm))] := by
      rw [← hfolded] at hf1
      rw [hf1, hfs1_eq, List.map_append, map_appendIf_not_mem _ _ _ hfresh]
      simp
    have hactive_mem : st.active_file ∈ st.files.map Prod.fst := by
      rw [hnames]
      exact List.mem_append_right _ (List.mem_singleton.mpr rfl)
    have hinact_sub : ∀ p ∈ st.inactive_files, p ∈ folded.1.map Prod.fst := by
      intro p hp
      rw [hfolded1, List.map_append]
      refine List.mem_append_left _ ?_
      rw [hnames]
      exact List.mem_append_left _ hp
    have hinact_nodup : st.inactive_files.Nodup := by
      rw [hnames] at hnodup
      exact hnodup.of_append_left
    have hact_not_inact : st.active_file ∉ st.inactive_files := by
      rw [hnames, List.nodup_append] at hnodup
      intro hc
      exact hnodup.2.2 hc (List.mem_singleton.mpr rfl)
    have hremove := removeFiles_spec st.inactive_files folded.1 hinact_sub hinact_nodup
    simp only [← hfolded, hremove] at h
    obtain ⟨cA, hcA⟩ := Option.isSome_iff_exists.mp
      ((alookup_isSome_iff st.files st.active_file).mpr hactive_mem)
    have hfs3_active :
        alookup (folded.1.filter (fun e => decide (e.1 ∉ st.inactive_files)))
          st.active_file = some cA := by
      have hfk := alookup_filter_keys (fun x => decide (x ∉ st.inactive_files))
        folded.1 st.active_file (by simpa using hact_not_inact)
      rw [hfk, hfolded1, alookup_append, hcA]
    simp only [hfs3_active] at h
    have hst' : st' = Store.mk
        (eraseA (folded.1.filter (fun e => decide (e.1 ∉ st.inactive_files)))
          st.active_file)
        folded.2.2 now [] folded.2.1 := (congrArg Prod.snd h).symm
    have hnow_ni : now ∉ st.inactive_files := by
      intro hc
      apply hnow_not
      rw [hnames]
      exact List.mem_append_left _ hc
    have hnow_na : now ≠ st.active_file := by
      intro hc
      apply hnow_not
      rw [hc]
      exact hactive_mem
    have hfiles : eraseA
        (folded.1.filter (fun e => decide (e.1 ∉ st.inactive_files)))
        st.active_file = [(now, encAll (liveRecs sm))] := by
      rw [eraseA, List.filter_filter, hfolded1, List.filter_append]
      have hleft : st.files.filter
          (fun a => decide (a.1 ≠ st.active_file) && decide (a.1 ∉ st.inactive_files)) =
          [] := by
        rw [List.filter_eq_nil_iff]
        intro e he
        have hmem : e.1 ∈ st.inactive_files ++ [st.active_file] := by
          rw [← hnames]
          exact List.mem_map_of_mem Prod.fst he
        rcases List.mem_append.mp hmem with h1 | h1
        · simp [h1]
        · simp [List.mem_singleton.mp h1]
      have hright : ([(now, encAll (liveRecs sm))] : List (Nat × Bytes)).filter
          (fun a => decide (a.1 ≠ st.active_file) && decide (a.1 ∉ st.inactive_files)) =
          [(now, encAll (liveRecs sm))] := by
        simp [hnow_ni, hnow_na]
      rw [hleft, hright, List.nil_append]
    have hbytes : folded.2.2 = (encAll (liveRecs sm)).length := by
      rw [← hfolded] at hf2
      rw [hf2, Nat.zero_add]
    refine ⟨sm, hsm, ?_, ?_, ?_, ?_, ?_, ?_, ?_⟩
    · rw [hst']
      exact hfiles
    · rw [hst']
    · rw [hst']
    · rw [hst']
      exact hbytes
    · intro k hk
      rw [hst']
      exact hf3 k hk
    · intro k hk
      rw [hst']
      exact hf4 k hk
    · intro k v hk
      rw [hst']
      exact hf5 k v hk

theorem offsetsFrom_map_fst (p : Nat) :
    ∀ (pos : Nat) (rs : List KvRecord), (offsetsFrom p pos rs).map Prod.fst = rs := by
  intro pos rs
  induction rs generalizing pos with
  | nil => rfl
  | cons r t ih => rw [offsetsFrom, List.map_cons, ih]

theorem alookup_mem {κ α : Type} [DecidableEq κ] :
    ∀ {l : List (κ × α)} {k : κ} {v : α}, alookup l k = some v → (k, v) ∈ l := by
  intro l
  induction l with
  | nil => intro k v h; simp [alookup] at h
  | cons e rest ih =>
    intro k v h
    rw [alookup] at h
    by_cases he : e.1 = k
    · rw [if_pos he] at h
      have h2 : e.2 = v := Option.some.inj h
      have h3 : (k, v) = e := by
        rw [← he, ← h2]
      rw [← h3] at *
      exact List.mem_cons_self (k, v) rest
    · rw [if_neg he] at h
      exact List.mem_cons_of_mem e (ih h)

/-- C3: after a successful `compact_files`, the directory holds exactly one
segment — the fresh active file — the inactive list is empty,
`bytes_in_last_file` equals the bytes written to the new segment, the
new segment decodes to exactly one `Set(k, v)` record per live key of
the pre-compaction replay carrying its latest value (and no record for
dead or unseen keys), live keys are indexed at the new records, and keys
whose last replayed record was an `Rm` are erased from the index. -/
theorem C3_compaction_result (st : Store) (now : Nat) (st' : Store)
    (hnames : st.files.map Prod.fst = st.inactive_files ++ [st.active_file])
    (hnodup : (st.files.map Prod.fst).Nodup)
    (hfresh : alookup st.files now = none)
    (h : KvStore.compact_files st now = (.ok (), st')) :
    ∃ oldRecs content newRecs,
      deserialize_files st.files (st.inactive_files ++ [st.active_file]) =
        .ok oldRecs ∧
      st'.files = [(now, content)] ∧
      st'.active_file = now ∧
      st'.inactive_files = [] ∧
      st'.bytes_in_last_file = content.length ∧
      deserializeFile now content = .ok newRecs ∧
      (∀ k, (newRecs.map Prod.fst).filter (fun r => decide (recKey r = k)) =
        match lastLive oldRecs k with
        | some v => [KvRecord.set k v]
        | none => []) ∧
      (∀ k v, lastLive oldRecs k = some v →
        ∃ vd, alookup st'.key_map k = some vd ∧ (KvRecord.set k v, vd) ∈ newRecs) ∧
      (∀ k, lastIsRm oldRecs k → alookup st'.key_map k = none) := by
  obtain ⟨recs, hdes, sm, hsm, hfiles, hact, hinact, hbytes, hun, hdead, hlive⟩ :=
    compact_files_ok st now st' hnames hnodup hfresh h
  have hlk : ∀ k, alookup sm k =
      match lastMatch (fun rv => decide (recKey rv.1 = k)) recs with
      | some rv => some (recVal rv.1)
      | none => none := by
    intro k
    rw [hsm]
    exact alookup_set_map recs k
  refine ⟨recs, encAll (liveRecs sm), offsetsFrom now 0 (liveRecs sm),
    hdes, hfiles, hact, hinact, hbytes, deserializeFile_encAll now (liveRecs sm),
    ?_, ?_, ?_⟩
  · intro k
    rw [offsetsFrom_map_fst, liveRecs_filter k sm (by rw [hsm]; exact set_map_nodup recs)]
    rw [hlk k, lastLive]
    cases hlm : lastMatch (fun rv => decide (recKey rv.1 = k)) recs with
    | none => rfl
    | some rv =>
      cases hrv : recVal rv.1 with
      | some v => simp only [hrv]
      | none => simp only [hrv]
  · intro k v hl
    rw [lastLive] at hl
    cases hlm : lastMatch (fun rv => decide (recKey rv.1 = k)) recs with
    | none =>
      rw [hlm] at hl
      exact absurd hl (by simp)
    | some rv =>
      simp only [hlm] at hl
      have hmem : (k, some v) ∈ sm := alookup_mem (by simp only [hlk k, hlm, hl])
      exact hlive k v hmem
  · intro k hl
    obtain ⟨rv, hlm, hrv⟩ := hl
    have hmem : (k, (none : Option Bytes)) ∈ sm :=
      alookup_mem (by simp only [hlk k, hlm, hrv])
    exact hdead k hmem

theorem C3_witness :
    ∃ oldRecs content newRecs,
      deserialize_files (Store.mk [(3, [0, 1, 0, 1, 1])] 5 3 [] []).files
        ((Store.mk [(3, [0, 1, 0, 1, 1])] 5 3 [] []).inactive_files ++
          [(Store.mk [(3, [0, 1, 0, 1, 1])] 5 3 [] []).active_file]) = .ok oldRecs ∧
      (Store.mk [(7, [0, 1, 0, 1, 1])] 5 7 []
        [([0], ValueData.mk 5 0 7)]).files = [(7, content)] ∧
      (Store.mk [(7, [0, 1, 0, 1, 1])] 5 7 []
        [([0], ValueData.mk 5 0 7)]).active_file = 7 ∧
      (Store.mk [(7, [0, 1, 0, 1, 1])] 5 7 []
        [([0], ValueData.mk 5 0 7)]).inactive_files = [] ∧
      (Store.mk [(7, [0, 1, 0, 1, 1])] 5 7 []
        [([0], ValueData.mk 5 0 7)]).bytes_in_last_file = content.length ∧
      deserializeFile 7 content = .ok newRecs ∧
      (∀ k, (newRecs.map Prod.fst).filter (fun r => decide (recKey r = k)) =
        match lastLive oldRecs k with
        | some v => [KvRecord.set k v]
        | none => []) ∧
      (∀ k v, lastLive oldRecs k = some v →
        ∃ vd, alookup (Store.mk [(7, [0, 1, 0, 1, 1])] 5 7 []
          [([0], ValueData.mk 5 0 7)]).key_map k = some vd ∧
          (KvRecord.set k v, vd) ∈ newRecs) ∧
      (∀ k, lastIsRm oldRecs k →
        alookup (Store.mk [(7, [0, 1, 0, 1, 1])] 5 7 []
          [([0], ValueData.mk 5 0 7)]).key_map k = none) :=
  C3_compaction_result (Store.mk [(3, [0, 1, 0, 1, 1])] 5 3 [] []) 7
    (Store.mk [(7, [0, 1, 0, 1, 1])] 5 7 [] [([0], ValueData.mk 5 0 7)])
    rfl (by decide) rfl rfl

theorem encAll_singleton (r : KvRecord) : encAll [r] = rmpEncode r := by
  simp [encAll]

/-- A well-formed store satisfies the claimed index property: every entry
reads back in bounds as a whole record keyed by the index key. -/
theorem wf_liveReadsBack (st : Store) (hwf : StoreWF st) : liveReadsBack st := by
  intro k vd hk
  obtain ⟨c, rs, r, hc, hcrs, hmem, hkey⟩ := hwf.index k vd hk
  obtain ⟨a, b, hab, hsz, hoff, hfp⟩ := offsetsFrom_mem hmem
  refine ⟨c, r, hc, ?_, ?_, hkey, ?_⟩
  · rw [hcrs, hab, hsz, hoff, Nat.zero_add, encAll_append, encAll_cons,
      List.length_append, List.length_append]
    omega
  · rw [hcrs, hab, hsz, hoff, Nat.zero_add, slice_encAll]
    exact rmpDecodeOne_encode_nil r
  · intro k' v' hr
    rw [hr] at hkey
    exact hkey

/-- A successful `set` preserves the store invariant. -/
theorem set_wf (st : Store) (k v : Bytes) (st' : Store) (hwf : StoreWF st)
    (h : KvStore.set st k v WriteOutcome.ok = (.ok (), st')) : StoreWF st' := by
  obtain ⟨c, hc, hbytes⟩ := hwf.active
  have hspec := write_command_spec st (.set k v) k c hc
  rw [KvStore.set] at h
  have hst' : _ = st' := congrArg Prod.snd (hspec.symm.trans h)
  obtain ⟨rs, hrs⟩ := hwf.parses st.active_file c hc
  subst hst'
  have hnames2 : (insertA st.files st.active_file
      (c ++ rmpEncode (.set k v))).map Prod.fst = st.files.map Prod.fst :=
    insertA_names st.files st.active_file _ (by rw [hc]; rfl)
  constructor
  · show (insertA st.files st.active_file (c ++ rmpEncode (.set k v))).map Prod.fst =
      st.inactive_files ++ [st.active_file]
    rw [hnames2]
    exact hwf.names
  · show ((insertA st.files st.active_file (c ++ rmpEncode (.set k v))).map Prod.fst).Nodup
    rw [hnames2]
    exact hwf.nodup
  · refine ⟨c ++ rmpEncode (.set k v), ?_, ?_⟩
    · show alookup (insertA st.files st.active_file (c ++ rmpEncode (.set k v)))
        st.active_file = _
      rw [alookup_insertA, if_pos rfl]
    · show st.bytes_in_last_file + (rmpEncode (.set k v)).length = _
      rw [hbytes, List.length_append]
  · intro p c' hp
    have hp' : alookup (insertA st.files st.active_file (c ++ rmpEncode (.set k v))) p =
        some c' := hp
    rw [alookup_insertA] at hp'
    by_cases hap : st.active_file = p
    · rw [if_pos hap] at hp'
      refine ⟨rs ++ [KvRecord.set k v], ?_⟩
      rw [← Option.some.inj hp', hrs, encAll_append, encAll_singleton]
    · rw [if_neg hap] at hp'
      exact hwf.parses p c' hp'
  · intro k' vd hk'
    have hk'' : alookup (insertA st.key_map k
        (ValueData.mk (rmpEncode (.set k v)).length st.bytes_in_last_file
          st.active_file)) k' = some vd := hk'
    rw [alookup_insertA] at hk''
    by_cases hkk : k = k'
    · subst hkk
      rw [if_pos rfl] at hk''
      have hvd := Option.some.inj hk''
      refine ⟨c ++ rmpEncode (.set k v), rs ++ [KvRecord.set k v], KvRecord.set k v,
        ?_, ?_, ?_, rfl⟩
      · rw [← hvd]
        show alookup (insertA st.files st.active_file (c ++ rmpEncode (.set k v)))
          st.active_file = _
        rw [alookup_insertA, if_pos rfl]
      · rw [hrs, encAll_append, encAll_singleton]
      · rw [← hvd]
        show _ ∈ offsetsFrom st.active_file 0 (rs ++ [KvRecord.set k v])
        rw [offsetsFrom_append, offsetsFrom]
        apply List.mem_append_right
        have hoffeq : 0 + (encAll rs).length = st.bytes_in_last_file := by
          rw [Nat.zero_add, ← hrs, hbytes]
        rw [hoffeq]
        exact List.mem_cons_self _ _
    · rw [if_neg hkk] at hk''
      obtain ⟨c0, rs0, r0, hc0, hcrs0, hmem0, hkey0⟩ := hwf.index k' vd hk''
      by_cases hfp : vd.file_path = st.active_file
      · have hc0c : c0 = c := by
          rw [hfp] at hc0
          exact Option.some.inj (hc0.symm.trans hc)
        refine ⟨c ++ rmpEncode (.set k v), rs0 ++ [KvRecord.set k v], r0, ?_, ?_, ?_, hkey0⟩
        · rw [hfp]
          show alookup (insertA st.files st.active_file (c ++ rmpEncode (.set k v)))
            st.active_file = _
          rw [alookup_insertA, if_pos rfl]
        · rw [encAll_append, encAll_singleton, ← hcrs0, hc0c]
        · rw [hfp] at hmem0 ⊢
          rw [offsetsFrom_append]
          exact List.mem_append_left _ hmem0
      · refine ⟨c0, rs0, r0, ?_, hcrs0, hmem0, hkey0⟩
        show alookup (insertA st.files st.active_file (c ++ rmpEncode (.set k v)))
          vd.file_path = some c0
        rw [alookup_insertA, if_neg (fun hc2 => hfp hc2.symm)]
        exact hc0

/-- Opening establishes the store invariant (given distinct file names in
the directory, which a real directory guarantees). -/
theorem open_wf (listing : List (Nat × Bytes)) (now : Nat) (st : Store)
    (hnd : (listing.map Prod.fst).Nodup)
    (h : KvStore.openStore listing now = .ok st) : StoreWF st := by
  cases hlst : listing.getLast? with
  | none =>
    have hnil : listing = [] := List.getLast?_eq_none_iff.mp hlst
    subst hnil
    have h0 := (openStore_nil now).symm.trans h
    have hst : Store.mk [(now, [])] 0 now [] [] = st := by injection h0
    subst hst
    constructor
    · rfl
    · simp
    · exact ⟨[], by rw [alookup, if_pos rfl], rfl⟩
    · intro p c hp
      rw [alookup] at hp
      by_cases hnp : now = p
      · rw [if_pos hnp] at hp
        exact ⟨[], by rw [← Option.some.inj hp]; rfl⟩
      · rw [if_neg hnp, alookup] at hp
        exact absurd hp (by simp)
    · intro k vd hk
      rw [alookup] at hk
      exact absurd hk (by simp)
  | some last =>
    have hne : listing ≠ [] := by
      intro hc
      rw [hc] at hlst
      simp at hlst
    have hlast_eq : last = listing.getLast hne := by
      have := (List.getLast?_eq_getLast listing hne).symm.trans hlst
      exact (Option.some.inj this).symm
    have hsplit : listing = listing.dropLast ++ [last] := by
      rw [hlast_eq]
      exact (List.dropLast_append_getLast hne).symm
    have hlast_mem : last ∈ listing := by
      rw [hsplit]
      exact List.mem_append_right _ (List.mem_singleton.mpr rfl)
    have hnew : KvStore.new listing now =
        Store.mk listing last.2.length last.1 (listing.dropLast.map Prod.fst) [] := by
      rw [KvStore.new, hlst]
    simp only [KvStore.openStore, hnew] at h
    cases hdes : deserialize_files listing
        (listing.dropLast.map Prod.fst ++ [last.1]) with
    | error e =>
      rw [hdes] at h
      exact absurd h (by simp)
    | ok recs =>
      rw [hdes] at h
      have h' : Except.ok (Store.mk listing last.2.length last.1
          (listing.dropLast.map Prod.fst)
          (recs.foldl (fun m rv => insertA m (recKey rv.1) rv.2) [])) =
          Except.ok st := h
      have hst : Store.mk listing last.2.length last.1
          (listing.dropLast.map Prod.fst)
          (recs.foldl (fun m rv => insertA m (recKey rv.1) rv.2) []) = st := by
        injection h'
      subst hst
      have hmapsplit : listing.map Prod.fst =
          listing.dropLast.map Prod.fst ++ [last.1] := by
        conv_lhs => rw [hsplit]
        rw [List.map_append]
        rfl
      constructor
      · exact hmapsplit
      · exact hnd
      · exact ⟨last.2, alookup_of_mem_nodup hnd hlast_mem, rfl⟩
      · intro p c hp
        have hp_mem : p ∈ listing.dropLast.map Prod.fst ++ [last.1] := by
          rw [← hmapsplit, ← alookup_isSome_iff, hp]
          rfl
        obtain ⟨c2, sub, hpc2, hdf2, _⟩ := deserialize_files_mem_paths hdes p hp_mem
        have hc2 : c2 = c := Option.some.inj (hpc2.symm.trans hp)
        subst hc2
        obtain ⟨rs, hcrs, _⟩ := deserializeFile_complete hdf2
        exact ⟨rs, hcrs⟩
      · intro k vd hk
        have hfold := alookup_foldl_insertA (fun rv : KvRecord × ValueData => recKey rv.1)
          (fun rv : KvRecord × ValueData => rv.2) recs [] k
        rw [hfold] at hk
        cases hlm : lastMatch (fun rv => decide (recKey rv.1 = k)) recs with
        | none =>
          rw [hlm] at hk
          exact absurd hk (by simp [alookup])
        | some rv =>
          simp only [hlm] at hk
          have hvd : rv.2 = vd := Option.some.inj hk
          have hkey : recKey rv.1 = k := by
            have := (lastMatch_mem hlm).2
            simpa using this
          have hmem := (lastMatch_mem hlm).1
          obtain ⟨p, c, sub, hp_paths, hpc, hpdf, hxsub⟩ :=
            deserialize_files_mem_recs hdes rv hmem
          obtain ⟨rs, hcrs, hsubeq⟩ := deserializeFile_complete hpdf
          have hmem2 : (rv.1, rv.2) ∈ offsetsFrom p 0 rs := by
            rw [← hsubeq]
            exact hxsub
          obtain ⟨a, b, _, _, _, hfp⟩ := offsetsFrom_mem hmem2
          refine ⟨c, rs, rv.1, ?_, hcrs, ?_, hkey⟩
          · rw [← hvd, hfp]
            exact hpc
          · rw [← hvd, hfp]
            exact hmem2

/-- A successful compaction preserves the store invariant. -/
theorem compact_wf (st : Store) (now : Nat) (st' : Store) (hwf : StoreWF st)
    (hfresh : alookup st.files now = none)
    (h : KvStore.compact_files st now = (.ok (), st')) : StoreWF st' := by
  obtain ⟨recs, hdes, sm, hsm, hfiles, hact, hinact, hbytes, hun, hdead, hlive⟩ :=
    compact_files_ok st now st' hwf.names hwf.nodup hfresh h
  have hlk : ∀ k, alookup sm k =
      match lastMatch (fun rv => decide (recKey rv.1 = k)) recs with
      | some rv => some (recVal rv.1)
      | none => none := by
    intro k
    rw [hsm]
    exact alookup_set_map recs k
  constructor
  · rw [hfiles, hact, hinact]
    rfl
  · rw [hfiles]
    simp
  · refine ⟨encAll (liveRecs sm), ?_, ?_⟩
    · rw [hfiles, hact, alookup, if_pos rfl]
    · rw [hbytes]
  · intro p c hp
    rw [hfiles, alookup] at hp
    by_cases hnp : now = p
    · rw [if_pos hnp] at hp
      exact ⟨liveRecs sm, (Option.some.inj hp).symm⟩
    · rw [if_neg hnp, alookup] at hp
      exact absurd hp (by simp)
  · intro k vd hk
    by_cases hkin : k ∈ sm.map Prod.fst
    · obtain ⟨x, hx⟩ := Option.isSome_iff_exists.mp ((alookup_isSome_iff sm k).mpr hkin)
      cases x with
      | none =>
        rw [hdead k (alookup_mem hx)] at hk
        exact absurd hk (by simp)
      | some v =>
        obtain ⟨vd0, hvd0, hmem0⟩ := hlive k v (alookup_mem hx)
        have hvdeq : vd0 = vd := Option.some.inj (hvd0.symm.trans hk)
        subst hvdeq
        obtain ⟨a, b, _, _, _, hfp⟩ := offsetsFrom_mem hmem0
        refine ⟨encAll (liveRecs sm), liveRecs sm, KvRecord.set k v, ?_, rfl, ?_, rfl⟩
        · rw [hfp, hfiles, alookup, if_pos rfl]
        · rw [hfp]
          exact hmem0
    · rw [hun k hkin] at hk
      obtain ⟨c0, rs0, r0, hc0, hcrs0, hmem0, hkey0⟩ := hwf.index k vd hk
      exfalso
      apply hkin
      have hfp_mem : vd.file_path ∈ st.inactive_files ++ [st.active_file] := by
        rw [← hwf.names, ← alookup_isSome_iff, hc0]
        rfl
      obtain ⟨c1, sub, hpc1, hdf1, hsubrecs⟩ :=
        deserialize_files_mem_paths hdes vd.file_path hfp_mem
      have hc1c0 : c1 = c0 := Option.some.inj (hpc1.symm.trans hc0)
      subst hc1c0
      have hdfcanon : deserializeFile vd.file_path c1 =
          .ok (offsetsFrom vd.file_path 0 rs0) := by
        rw [hcrs0]
        exact deserializeFile_encAll _ _
      have hsub_eq : sub = offsetsFrom vd.file_path 0 rs0 :=
        Except.ok.inj (hdf1.symm.trans hdfcanon)
      have hrec_mem : (r0, vd) ∈ recs := hsubrecs _ (hsub_eq ▸ hmem0)
      rw [← alookup_isSome_iff, hlk k]
      cases hlm : lastMatch (fun rv => decide (recKey rv.1 = k)) recs with
      | some rv => rfl
      | none =>
        exfalso
        apply lastMatch_eq_none.mp hlm (r0, vd) hrec_mem
        simp [hkey0]

/-- C8: for any key held in the index as a live mapping, reading
`byte_length` bytes at `byte_offset` of the recorded segment decodes to a
`Set` record whose embedded key equals the index key (and every index
entry, tombstones included, reads back as a whole record keyed by the
index key); this invariant is established by the open-time replay and
preserved by successful `set` and by compaction. -/
theorem C8_live_index_invariant :
    (∀ listing : List (Nat × Bytes), ∀ now : Nat, ∀ st : Store,
      (listing.map Prod.fst).Nodup →
      KvStore.openStore listing now = .ok st → StoreWF st) ∧
    (∀ st : Store, ∀ k v : Bytes, ∀ st' : Store,
      StoreWF st → KvStore.set st k v WriteOutcome.ok = (.ok (), st') → StoreWF st') ∧
    (∀ st : Store, ∀ now : Nat, ∀ st' : Store,
      StoreWF st → alookup st.files now = none →
      KvStore.compact_files st now = (.ok (), st') → StoreWF st') ∧
    (∀ st : Store, StoreWF st → liveReadsBack st) :=
  ⟨open_wf, set_wf, compact_wf, wf_liveReadsBack⟩

theorem C8_witness : StoreWF (Store.mk [(5, [])] 0 5 [] []) :=
  C8_live_index_invariant.1 [] 5 (Store.mk [(5, [])] 0 5 [] [])
    (by simp) (openStore_nil 5)
